import Mathlib

/-!
Verification development for the fetch-node execution unit of a federated
query router (`apollo-router/src/query_planner/fetch.rs`).

The JSON value / path primitives (`json_ext`), the selection-execution
primitive (`query_planner/selection.rs`), the rewrite engine
(`query_planner/rewrites.rs`) and the graphql response/error types live in
modules of the repository that are not part of the verified sources; they
are modelled from the specification (spec.md sections 3, 4.1, 4.4 and 6)
and each such definition is marked `Modelled from the spec`.  Everything
else is a direct translation of `fetch.rs`.
-/

namespace Fetch

/-- Modelled from the spec: a JSON value (`serde_json_bytes::Value`), the
payload primitive of the Path & Value model.  Numbers are modelled as
integers; the claims under study never inspect numeric torsion. -/
inductive Value where
  | null
  | bool (b : Bool)
  | num (n : Int)
  | str (s : String)
  | arr (xs : List Value)
  | obj (fields : List (String × Value))
deriving Repr, Inhabited

mutual

def valueEqDec : (a b : Value) → Decidable (a = b)
  | .null, .null => isTrue rfl
  | .bool u, .bool w =>
    if h : u = w then isTrue (congrArg Value.bool h)
    else isFalse fun hc => h (Value.bool.inj hc)
  | .num u, .num w =>
    if h : u = w then isTrue (congrArg Value.num h)
    else isFalse fun hc => h (Value.num.inj hc)
  | .str u, .str w =>
    if h : u = w then isTrue (congrArg Value.str h)
    else isFalse fun hc => h (Value.str.inj hc)
  | .arr u, .arr w =>
    match valueListEqDec u w with
    | isTrue h => isTrue (congrArg Value.arr h)
    | isFalse h => isFalse fun hc => h (Value.arr.inj hc)
  | .obj u, .obj w =>
    match fieldsEqDec u w with
    | isTrue h => isTrue (congrArg Value.obj h)
    | isFalse h => isFalse fun hc => h (Value.obj.inj hc)
  | .null, .bool _
  | .null, .num _
  | .null, .str _
  | .null, .arr _
  | .null, .obj _
  | .bool _, .null
  | .bool _, .num _
  | .bool _, .str _
  | .bool _, .arr _
  | .bool _, .obj _
  | .num _, .null
  | .num _, .bool _
  | .num _, .str _
  | .num _, .arr _
  | .num _, .obj _
  | .str _, .null
  | .str _, .bool _
  | .str _, .num _
  | .str _, .arr _
  | .str _, .obj _
  | .arr _, .null
  | .arr _, .bool _
  | .arr _, .num _
  | .arr _, .str _
  | .arr _, .obj _
  | .obj _, .null
  | .obj _, .bool _
  | .obj _, .num _
  | .obj _, .str _
  | .obj _, .arr _ => isFalse fun hc => Value.noConfusion hc

def valueListEqDec : (u w : List Value) → Decidable (u = w)
  | [], [] => isTrue rfl
  | [], _ :: _ => isFalse fun hc => List.noConfusion hc
  | _ :: _, [] => isFalse fun hc => List.noConfusion hc
  | a :: as, b :: bs =>
    match valueEqDec a b, valueListEqDec as bs with
    | isTrue h1, isTrue h2 => isTrue (by rw [h1, h2])
    | isFalse h1, _ => isFalse fun hc => h1 (List.cons.inj hc).1
    | _, isFalse h2 => isFalse fun hc => h2 (List.cons.inj hc).2

def fieldsEqDec : (u w : List (String × Value)) → Decidable (u = w)
  | [], [] => isTrue rfl
  | [], _ :: _ => isFalse fun hc => List.noConfusion hc
  | _ :: _, [] => isFalse fun hc => List.noConfusion hc
  | (k, a) :: as, (l, b) :: bs =>
    if hk : k = l then
      match valueEqDec a b, fieldsEqDec as bs with
      | isTrue h1, isTrue h2 => isTrue (by rw [hk, h1, h2])
      | isFalse h1, _ => isFalse fun hc => h1 (congrArg Prod.snd (List.cons.inj hc).1)
      | _, isFalse h2 => isFalse fun hc => h2 (List.cons.inj hc).2
    else isFalse fun hc => hk (congrArg Prod.fst (List.cons.inj hc).1)

end

instance : DecidableEq Value := valueEqDec

/-- Modelled from the spec: one addressing step of a `Path` — an object
key, an array index, or a "flatten" marker meaning "for every element of
the array here".  (The source's optional type conditions on keys and
flatten markers are not exercised by any claim and are omitted.) -/
inductive PathElement where
  | key (k : String)
  | index (i : Nat)
  | flatten
deriving DecidableEq, Repr, Inhabited

/-- Modelled from the spec: a path is an ordered sequence of addressing
steps. -/
abbrev Path := List PathElement

/-- Look a key up in the field list of a JSON object (first occurrence,
as for a map). -/
def objGet (fields : List (String × Value)) (k : String) : Option Value :=
  (fields.find? (fun kv => kv.1 == k)).map (fun kv => kv.2)

/-- Insert a key into the field list of a JSON object: an existing key is
updated in place (keeping its position, as for an order-preserving map),
a new key is appended at the end. -/
def objInsert : List (String × Value) → String → Value → List (String × Value)
  | [], k, v => [(k, v)]
  | (k', v') :: rest, k, v =>
    if k' == k then (k', v) :: rest else (k', v') :: objInsert rest k v

/-- Modelled from the spec: navigation to the value at a path
(`ValueExt::get_path`), used by the Variable Builder's null-guard.  A
missing step yields `none`; a flatten marker does not address a single
position and is treated as missing here (the null-guard rule of spec
section 4.1 only reads concrete key/index paths). -/
def Value.getPath : Value → Path → Option Value
  | v, [] => some v
  | .obj fields, .key k :: rest =>
    match objGet fields k with
    | some v => v.getPath rest
    | none => none
  | .arr xs, .index i :: rest =>
    match xs.get? i with
    | some v => v.getPath rest
    | none => none
  | _, _ => none

/-- Set position `i` of a JSON array to `y`, extending the array with
nulls when `i` is beyond its end (JSON arrays are dense, so an insertion
at an out-of-range index must pad). -/
def setPad : List Value → Nat → Value → List Value
  | _ :: xs, 0, y => y :: xs
  | [], 0, y => [y]
  | x :: xs, i + 1, y => x :: setPad xs i y
  | [], i + 1, y => .null :: setPad [] i y

/-- Modelled from the spec: `ValueExt::insert` — graft `x` into `root` at
`path`, creating the missing intermediate objects and arrays (spec 4.4:
"accumulate into a single partial value rooted at the empty path").  A
flatten marker means "for every element of the array here". -/
def Value.insertAt : Value → Path → Value → Value
  | _, [], x => x
  | v, .key k :: rest, x =>
    match v with
    | .obj fields =>
      .obj (objInsert fields k (Value.insertAt ((objGet fields k).getD .null) rest x))
    | _ => .obj [(k, Value.insertAt .null rest x)]
  | v, .index i :: rest, x =>
    match v with
    | .arr xs => .arr (setPad xs i (Value.insertAt ((xs.get? i).getD .null) rest x))
    | _ => .arr (setPad [] i (Value.insertAt .null rest x))
  | v, .flatten :: rest, x =>
    match v with
    | .arr xs => .arr (xs.map (fun e => Value.insertAt e rest x))
    | _ => v

/-- Modelled from the spec: `Value::from_path` — build a value tree with
`x` grafted at `path`.  A flatten marker is conceptual only: it marks the
graft point (spec 4.4, "the actual merge target is the non-flattened
array's common prefix"), so building stops there. -/
def Value.fromPath : Path → Value → Value
  | [], x => x
  | .key k :: rest, x => .obj [(k, Value.fromPath rest x)]
  | .index i :: rest, x => .arr (setPad [] i (Value.fromPath rest x))
  | .flatten :: _, x => x

/-- Modelled from the spec: `select_values_and_paths` enumerates every
position in the response tree matched by a path; flatten markers expand
over every element of an array, recording the concrete index in the
produced path (spec 4.1: "paths may contain flatten markers, so one call
may enumerate many positions"). -/
def selectValuesAndPaths : Path → Path → Value → List (Path × Value)
  | [], parent, data => [(parent, data)]
  | .flatten :: rest, parent, data =>
    match data with
    | .arr xs => xs.enum.flatMap (fun iv =>
        selectValuesAndPaths rest (parent ++ [.index iv.1]) iv.2)
    | _ => []
  | .index i :: rest, parent, data =>
    match data with
    | .arr xs =>
      match xs.get? i with
      | some v => selectValuesAndPaths rest (parent ++ [.index i]) v
      | none => []
    | _ => []
  | .key k :: rest, parent, data =>
    match data with
    | .obj fields =>
      match objGet fields k with
      | some v => selectValuesAndPaths rest (parent ++ [.key k]) v
      | none => []
    | _ => []

mutual

/-- Modelled from the spec: a required input selection
(`query_planner/selection.rs`) — a field (with optional alias and
subselections) or an inline fragment guarded by a type condition.  The
selection lists (`Vec<Selection>` and `Option<Vec<Selection>>` in the
source) are rendered as the mutually-defined `Selections` and
`OptSelections` so that selection execution is structurally
recursive. -/
inductive Selection where
  | field (name : String) (alias? : Option String) (selections : OptSelections)
  | inlineFragment (typeCondition : Option String) (selections : Selections)

/-- An optional selection list (`Option<Vec<Selection>>`). -/
inductive OptSelections where
  | none
  | some (sels : Selections)

/-- A selection list (`Vec<Selection>`). -/
inductive Selections where
  | nil
  | cons (head : Selection) (tail : Selections)

end

/-- Emptiness of a selection list (`Vec::is_empty`). -/
def Selections.isEmpty : Selections → Bool
  | .nil => true
  | .cons _ _ => false

lemma selections_isEmpty_false {sels : Selections} (h : sels ≠ .nil) :
    sels.isEmpty = false := by
  cases sels with
  | nil => exact absurd rfl h
  | cons a t => rfl

/-- The `__typename` of a JSON object, when present as a string. -/
def typenameOf (fields : List (String × Value)) : Option String :=
  match objGet fields "__typename" with
  | some (.str t) => some t
  | _ => none

mutual

/-- Modelled from the spec: execution of one selection against the field
list of an object — a field projects the matching key (an absent field is
skipped), recursing through its subselections when present; an inline
fragment applies when its type condition matches the object's
`__typename`. -/
def executeSelection (fields : List (String × Value)) : Selection → List (String × Value)
  | .field name alias? sub =>
    match objGet fields name with
    | some v =>
      [(alias?.getD name,
        match sub with
        | .none => v
        | .some sels =>
          match v with
          | .obj vfields => .obj (executeSelections vfields sels)
          | _ => .null)]
    | none => []
  | .inlineFragment cond sels =>
    match cond with
    | some t => if typenameOf fields = some t then executeSelections fields sels else []
    | none => executeSelections fields sels

def executeSelections (fields : List (String × Value)) : Selections → List (String × Value)
  | .nil => []
  | .cons s rest => executeSelection fields s ++ executeSelections fields rest

end

/-- Modelled from the spec: the selection-execution collaborator
`execute(value, selections, schema) -> Value` used for response shaping
(spec section 6); a non-object input yields null. -/
def executeSelectionSet (v : Value) (sels : Selections) : Value :=
  match v with
  | .obj fields => .obj (executeSelections fields sels)
  | _ => .null

/-- The emptiness test of `Variables::new`:
`value.as_object().map(|o| !o.is_empty()).unwrap_or(false)`. -/
def isNonEmptyObject : Value → Bool
  | .obj fields => !fields.isEmpty
  | _ => false

/-- Modelled from the spec: the data-rewrite engine is an external
collaborator "consumed as an external function that mutates a value tree
given a rewrite rule list" (spec section 1); a rule is modelled as that
function. -/
def DataRewrite : Type := Value → Value

/-- Modelled from the spec: `rewrites::apply_rewrites` applies each rule
of the optional rule list to the value, in order. -/
def apply_rewrites (rules : Option (List DataRewrite)) (v : Value) : Value :=
  match rules with
  | none => v
  | some rs => rs.foldl (fun acc r => r acc) v

/-- GraphQL operation type (`fetch.rs`, `OperationKind`). -/
inductive OperationKind where
  | query
  | mutation
  | subscription
deriving DecidableEq, Repr, Inhabited

/-- `fetch.rs`, `RestProtocolWrapper`: the declared service is a synthetic
wrapper around a connector. -/
structure RestProtocolWrapper where
  connector_service_name : String
  magic_finder_field : Option String
deriving DecidableEq, Repr

/-- `fetch.rs`, `RestFetchNode`: the fetch has been re-planned to call the
connector directly. -/
structure RestFetchNode where
  connector_service_name : String
  parent_service_name : String
deriving DecidableEq, Repr

/-- `fetch.rs`, `Protocol`: closed tagged union of the transports. -/
inductive Protocol where
  | graphQL
  | restWrapper (rw : RestProtocolWrapper)
  | restFetch (rf : RestFetchNode)
deriving DecidableEq, Repr

/-- `fetch.rs`, `SubgraphOperation`: an operation held in two
independently-settable write-once slots — printable text and a parsed
document.  Each `OnceLock` slot is modelled as an `Option` recording
whether it was ever initialized; the parsed document is modelled by its
printable form, which is all the claims observe. -/
structure SubgraphOperation where
  serialized : Option String
  parsed : Option String
deriving DecidableEq, Repr

/-- `fetch.rs`, `SubgraphOperation::from_string`. -/
def SubgraphOperation.from_string (serialized : String) : SubgraphOperation :=
  { serialized := some serialized, parsed := none }

/-- `fetch.rs`, `SubgraphOperation::from_parsed`. -/
def SubgraphOperation.from_parsed (parsed : String) : SubgraphOperation :=
  { serialized := none, parsed := some parsed }

/-- `fetch.rs`, `SubgraphOperation::replace`: substitute on the text form
only — `self.serialized.get().map(|op| op.replace(from, to))`, then
`from_string(serialized.unwrap_or_default())`.  The parsed form is never
consulted and the result caches no parsed form. -/
def SubgraphOperation.replace (op : SubgraphOperation) (f t : String) : SubgraphOperation :=
  let serialized := op.serialized.map (fun operation => operation.replace f t)
  SubgraphOperation.from_string (serialized.getD "")

/-- `fetch.rs`, `QueryHash`: an immutable byte sequence identifying the
operation plus relevant schema shape. -/
def QueryHash : Type := List Nat

/-- A fetch node (`fetch.rs`, `FetchNode`).  The authorization cache-key
metadata is an external plugin type never inspected by this core's logic
and is omitted. -/
structure FetchNode where
  service_name : String
  requires : Selections
  variable_usages : List String
  operation : SubgraphOperation
  operation_name : Option String
  operation_kind : OperationKind
  id : Option String
  input_rewrites : Option (List DataRewrite)
  output_rewrites : Option (List DataRewrite)
  schema_aware_hash : QueryHash
  protocol : Protocol

/-- Modelled from the spec: a source location inside the downstream
operation text, carried by downstream errors. -/
structure Location where
  line : Nat
  column : Nat
deriving DecidableEq, Repr

/-- Modelled from the spec: a graphql-shaped error
`{message, path?, locations?, extensions?}` (spec section 6). -/
structure Error where
  message : String
  locations : List Location
  path : Option Path
  extensions : List (String × Value)
deriving DecidableEq, Repr

/-- Modelled from the spec: a downstream response — nullable `data`, an
`errors` array, and a primary/incremental discriminator (spec section 6;
`is_primary()` is the negation of `incremental`). -/
structure Response where
  data : Option Value
  errors : List Error
  incremental : Bool

/-- `fetch.rs`, `Variables`: the outgoing payload object plus the
path-list index (`inverted_paths`).  The source field name `variables` is
a reserved token in Lean, hence the trailing underscore. -/
structure Variables where
  variables_ : List (String × Value)
  inverted_paths : List (List Path)
deriving DecidableEq, Repr

/-- First index of a structurally-equal element
(`IndexSet::get_index_of`). -/
def get_index_of : List Value → Value → Option Nat
  | [], _ => none
  | w :: ws, v => if w = v then some 0 else (get_index_of ws v).map (· + 1)

/-- Append a path to the list stored at position `i`
(`inverted_paths[index].push(path.clone())`). -/
def pushAt : List (List Path) → Nat → Path → List (List Path)
  | [], _, _ => []
  | l :: ls, 0, p => (l ++ [p]) :: ls
  | l :: ls, i + 1, p => l :: pushAt ls i p

/-- One iteration of the dedup loop in `Variables::new` (`fetch.rs` lines
318–333): execute the `requires` selection at the position, skip empty
objects, apply input rewrites, then record the value once and append the
position's path to that value's path list (if seen) or start a new list
(if new). -/
def dedupStep (requires : Selections) (input_rewrites : Option (List DataRewrite))
    (st : List (List Path) × List Value) (pv : Path × Value) :
    List (List Path) × List Value :=
  let value := executeSelectionSet pv.2 requires
  if isNonEmptyObject value then
    let value := apply_rewrites input_rewrites value
    match get_index_of st.2 value with
    | some index => (pushAt st.1 index pv.1, st.2)
    | none => (st.1 ++ [[pv.1]], st.2 ++ [value])
  else st

/-- `fetch.rs`, `Variables::new`.  The ambient request is represented by
its body's variable map (`request.body().variables`); the schema
parameter is consumed only by the spec-modelled collaborators and is
omitted. -/
def Variables.new (requires : Selections) (variable_usages : List String)
    (data : Value) (current_dir : Path) (body_variables : List (String × Value))
    (input_rewrites : Option (List DataRewrite)) : Option Variables :=
  if !requires.isEmpty then
    let ambient := variable_usages.filterMap (fun key =>
      (objGet body_variables key).map (fun value => (key, value)))
    let st := (selectValuesAndPaths current_dir [] data).foldl
      (dedupStep requires input_rewrites) ([], [])
    if st.2.isEmpty then none
    else some { variables_ := objInsert ambient "representations" (.arr st.2),
                inverted_paths := st.1 }
  else
    if !current_dir.isEmpty &&
        ((data.getPath current_dir).map (fun value => value == .null)).getD true then
      none
    else
      some { variables_ := variable_usages.filterMap (fun key =>
               (objGet body_variables key).map (fun value => (key, value))),
             inverted_paths := [] }

/-- The reserved entity-list path `/_entities` (`fetch.rs` lines
544–547). -/
def entitiesPath : Path := [.key "_entities"]

/-- Entity-regime error remapping, one downstream error at a time
(`fetch.rs` lines 550–588).  Locations are cleared; an error whose path
starts with `/_entities` followed by an index is fanned out once per
original path recorded at that index, with the path rewritten to the
original path plus the remainder after the index; any other error with a
path is relocated to `current_dir`; a path-less error is kept path-less.
The source pushes each produced error onto one accumulator, so the whole
loop is the concatenation of these per-error lists. -/
def entityErrorFanOut (inverted_paths : List (List Path)) (current_dir : Path)
    (error : Error) : List Error :=
  let error := { error with locations := [] }
  match error.path with
  | some path =>
    if entitiesPath.isPrefixOf path then
      match path.get? 1 with
      | some (.index i) =>
        ((inverted_paths.get? i).getD []).map (fun values_path =>
          { locations := error.locations,
            path := some (values_path ++ path.drop 2),
            message := error.message,
            extensions := error.extensions })
      | _ => [{ error with path := some current_dir }]
    else [{ error with path := some current_dir }]
  | none => [error]

/-- One entity's insertion step of the entity-regime stitcher (`fetch.rs`
lines 603–613): with two or more recorded paths, insert a clone of the
element at every path but the first, then insert the element at the first
path. -/
def stitchOne (value : Value) (paths : List Path) (entity : Value) : Value :=
  let value := (paths.drop 1).foldl (fun v path => v.insertAt path entity) value
  match paths.head? with
  | some path => value.insertAt path entity
  | none => value

/-- The entity-regime stitch fold over an explicit (index, entity) list
(`fetch.rs` lines 598–614): apply output rewrites, then insert the entity
at every path recorded for its index. -/
def stitchList (node : FetchNode) (inverted_paths : List (List Path))
    (v : Value) (l : List (Nat × Value)) : Value :=
  l.foldl (fun value ie =>
    let entity := apply_rewrites node.output_rewrites ie.2
    match inverted_paths.get? ie.1 with
    | some paths => stitchOne value paths entity
    | none => value) v

/-- Stitch a downstream entity array back using the path-list index
(`fetch.rs` lines 597–615). -/
def stitchEntities (node : FetchNode) (inverted_paths : List (List Path))
    (array : List Value) : Value :=
  stitchList node inverted_paths .null array.enum

/-- `fetch.rs`, `FetchNode::response_at_path`: reintegrate the raw
downstream response into a partial value tree scoped to `current_dir`,
remapping errors using the path-list index.  The entity regime is
selected when `requires` is non-empty. -/
def FetchNode.response_at_path (node : FetchNode) (current_dir : Path)
    (inverted_paths : List (List Path)) (response : Response) :
    Value × List Error :=
  if !node.requires.isEmpty then
    let errors := response.errors.flatMap (entityErrorFanOut inverted_paths current_dir)
    match response.data with
    | some (.obj map) =>
      match objGet map "_entities" with
      | some (.arr array) => (stitchEntities node inverted_paths array, errors)
      | _ => (.null, errors)
    | _ => (.null, errors)
  else
    let current_slice :=
      match current_dir.getLast? with
      | some .flatten => current_dir.dropLast
      | _ => current_dir
    let errors := response.errors.map (fun error =>
      { error with path := error.path.map (fun path => current_slice ++ path) })
    let data := apply_rewrites node.output_rewrites (response.data.getD .null)
    (Value.fromPath current_dir data, errors)

/-- Modelled from the spec: the error kinds surfaced by this core (spec
section 7) — `SubrequestHttpError{status_code?, service, reason}`,
`SubrequestUnexpectedPatchResponse{service}`, and (standing for the
remaining non-HTTP variants of the source's `FetchError`) a malformed
subrequest error. -/
inductive FetchError where
  | subrequestHttpError (status_code : Option Nat) (service : String) (reason : String)
  | subrequestUnexpectedPatchResponse (service : String)
  | subrequestMalformedResponse (service : String) (reason : String)
deriving DecidableEq, Repr

/-- Modelled from the spec: the textual rendering of a `FetchError` (its
`Display` implementation), used as the "failure's textual reason" when a
failure is wrapped. -/
def FetchError.displayMessage : FetchError → String
  | .subrequestHttpError _ service reason =>
    "HTTP fetch failed from " ++ service ++ ": " ++ reason
  | .subrequestUnexpectedPatchResponse service =>
    "subquery protocol error: unexpected patch response for service " ++ service
  | .subrequestMalformedResponse service reason =>
    "subquery response from service " ++ service ++ " was malformed: " ++ reason

/-- Modelled from the spec: the machine-readable code attached to a
graphql-shaped error produced from a `FetchError`. -/
def FetchError.code : FetchError → String
  | .subrequestHttpError _ _ _ => "SUBREQUEST_HTTP_ERROR"
  | .subrequestUnexpectedPatchResponse _ => "SUBREQUEST_UNEXPECTED_PATCH_RESPONSE"
  | .subrequestMalformedResponse _ _ => "SUBREQUEST_MALFORMED_RESPONSE"

/-- Modelled from the spec: `FetchError::to_graphql_error` — a
graphql-shaped error attached to the given path (spec section 7). -/
def FetchError.to_graphql_error (e : FetchError) (path : Option Path) : Error :=
  { message := e.displayMessage,
    locations := [],
    path := path,
    extensions := [("code", .str e.code)] }

/-- Modelled from the spec: an opaque transport failure returned by the
downstream call — either a typed `FetchError` that can be downcast, or
any other boxed error carrying only its textual rendering. -/
inductive BoxError where
  | fetch (e : FetchError)
  | other (reason : String)
deriving DecidableEq, Repr

/-- Failure normalization of the dispatcher (`fetch.rs` lines 481–495):
a failure that downcasts to `SubrequestHttpError` passes through
unchanged; every other failure is wrapped as a `SubrequestHttpError`
with no status code, the effective service name, and the failure's
textual rendering. -/
def normalize_failure (e : BoxError) (service_name : String) : FetchError :=
  match e with
  | .fetch inner =>
    match inner with
    | .subrequestHttpError status_code service reason =>
      .subrequestHttpError status_code service reason
    | _ => .subrequestHttpError none service_name inner.displayMessage
  | .other reason => .subrequestHttpError none service_name reason

/-- The service name used for dispatch and failure reporting (`fetch.rs`
lines 427–435): a `RestFetch` protocol substitutes the parent service
name, every other protocol keeps the declared service name. -/
def effective_service_name (node : FetchNode) : String :=
  match node.protocol with
  | .restFetch rf => rf.parent_service_name
  | _ => node.service_name

/-- `fetch.rs`, `FetchNode::fetch_node`.  The asynchronous downstream
call is shallowly embedded as the `service_result` argument (the outcome
the transport collaborator produced); the request construction, address
lookup (a planning-time precondition whose violation panics) and the
deferred-fetch side channel do not affect the returned pair and are not
modelled. -/
def FetchNode.fetch_node (node : FetchNode) (data : Value) (current_dir : Path)
    (body_variables : List (String × Value))
    (service_result : Except BoxError Response) : Value × List Error :=
  match Variables.new node.requires node.variable_usages data current_dir
      body_variables node.input_rewrites with
  | none => (.obj [], [])
  | some vars =>
    let service_name := effective_service_name node
    match service_result with
    | .error e =>
      (.null, [(normalize_failure e service_name).to_graphql_error (some current_dir)])
    | .ok response =>
      if response.incremental then
        (.null, [(FetchError.subrequestUnexpectedPatchResponse service_name).to_graphql_error
          (some current_dir)])
      else
        node.response_at_path current_dir vars.inverted_paths response

/-- A path that contains no flatten marker (every element is a concrete
key or index). -/
def flattenFree : Path → Bool
  | [] => true
  | .flatten :: _ => false
  | _ :: rest => flattenFree rest

lemma isEmpty_false_of_ne_nil {α : Type _} {l : List α} (h : l ≠ []) :
    l.isEmpty = false := by
  cases l with
  | nil => exact absurd rfl h
  | cons a t => rfl

/-- In the entity regime the error list returned by `response_at_path` is
the concatenation of the per-error fan-outs, whatever the data is. -/
lemma response_at_path_errors (node : FetchNode) (current_dir : Path)
    (inverted_paths : List (List Path)) (response : Response)
    (hreq : node.requires ≠ .nil) :
    (node.response_at_path current_dir inverted_paths response).2 =
      response.errors.flatMap (entityErrorFanOut inverted_paths current_dir) := by
  unfold FetchNode.response_at_path
  rw [selections_isEmpty_false hreq]
  dsimp only
  split
  · split
    · split <;> rfl
    · rfl
  · next h => exact absurd rfl h

/-- C10: `SubgraphOperation::replace` on an operation constructed only
from a parsed document (text form never demanded) returns an operation
whose text is the empty string — the parsed document is not consulted and
is discarded; when the text form is present, the result holds the
substituted text and no cached parsed form. -/
theorem subgraph_operation_replace_spec :
    (∀ d f t, (SubgraphOperation.from_parsed d).replace f t =
      { serialized := some "", parsed := none }) ∧
    (∀ s p f t, SubgraphOperation.replace { serialized := some s, parsed := p } f t =
      { serialized := some (s.replace f t), parsed := none }) := by
  constructor
  · intro d f t
    rfl
  · intro s p f t
    rfl

/-- C5: with `requires` empty, `current_path` non-empty and the value at
`current_path` null or missing, the Variable Builder returns nothing and
the fetch is skipped, producing neither value nor error (the fetch
returns an empty object and an empty error list). -/
theorem variables_new_null_guard (node : FetchNode) (data : Value)
    (current_dir : Path) (body_variables : List (String × Value))
    (service_result : Except BoxError Response)
    (hreq : node.requires = .nil) (hdir : current_dir ≠ [])
    (hnull : data.getPath current_dir = none ∨ data.getPath current_dir = some .null) :
    Variables.new node.requires node.variable_usages data current_dir body_variables
      node.input_rewrites = none ∧
    node.fetch_node data current_dir body_variables service_result = (.obj [], []) := by
  have hv : Variables.new node.requires node.variable_usages data current_dir
      body_variables node.input_rewrites = none := by
    unfold Variables.new
    rw [hreq]
    have hde : current_dir.isEmpty = false := isEmpty_false_of_ne_nil hdir
    rcases hnull with hn | hn <;>
      simp [hde, hn, Selections.isEmpty]
  refine ⟨hv, ?_⟩
  unfold FetchNode.fetch_node
  rw [hv]

/-- C8: an entity-regime downstream response containing neither the
reserved `_entities` key in its data nor any errors stitches to an empty
result (`null`) and an empty error list — no synthetic error is
emitted. -/
theorem response_at_path_missing_entities_silent (node : FetchNode)
    (current_dir : Path) (inverted_paths : List (List Path)) (response : Response)
    (hreq : node.requires ≠ .nil) (herr : response.errors = [])
    (hdata : ∀ m, response.data = some (.obj m) → objGet m "_entities" = none) :
    node.response_at_path current_dir inverted_paths response = (.null, []) := by
  have he : (node.response_at_path current_dir inverted_paths response).2 = [] := by
    rw [response_at_path_errors node current_dir inverted_paths response hreq, herr]
    rfl
  have h1 : (node.response_at_path current_dir inverted_paths response).1 = .null := by
    unfold FetchNode.response_at_path
    rw [selections_isEmpty_false hreq]
    dsimp only
    split
    · split
      · next x m hm =>
          rw [hdata m hm]
      · rfl
    · next h => exact absurd rfl h
  calc node.response_at_path current_dir inverted_paths response
      = ((node.response_at_path current_dir inverted_paths response).1,
         (node.response_at_path current_dir inverted_paths response).2) := rfl
    _ = (.null, []) := by rw [he, h1]

/-- C9: in the entity regime the locations of every returned error are
cleared — for errors fanned out onto entity paths, errors relocated to
the current path, and path-less errors alike. -/
theorem response_at_path_locations_cleared (node : FetchNode)
    (current_dir : Path) (inverted_paths : List (List Path)) (response : Response)
    (hreq : node.requires ≠ .nil) :
    ∀ e ∈ (node.response_at_path current_dir inverted_paths response).2,
      e.locations = [] := by
  intro e he
  rw [response_at_path_errors node current_dir inverted_paths response hreq] at he
  obtain ⟨e0, _, hfan⟩ := List.mem_flatMap.mp he
  obtain ⟨msg, locs, pth, ext⟩ := e0
  cases pth with
  | none =>
    simp [entityErrorFanOut] at hfan
    rw [hfan]
  | some p =>
    by_cases hpre : entitiesPath.isPrefixOf p
    · cases hg : p[1]? with
      | none =>
        simp [entityErrorFanOut, hpre, hg] at hfan
        rw [hfan]
      | some el =>
        cases el with
        | index i =>
          simp [entityErrorFanOut, hpre, hg] at hfan
          obtain ⟨q, _, hq⟩ := hfan
          rw [← hq]
        | key k =>
          simp [entityErrorFanOut, hpre, hg] at hfan
          rw [hfan]
        | flatten =>
          simp [entityErrorFanOut, hpre, hg] at hfan
          rw [hfan]
    · simp [entityErrorFanOut, hpre] at hfan
      rw [hfan]

/-- C3: in the entity regime, a downstream error whose path has the shape
`[_entities, i, ...rest]` with `i` recorded in the path-list index fans
out to exactly one error per original path recorded at index `i`, each
with path `original ++ rest` and empty locations; an error whose path
does not match this shape is relocated to the current path; a path-less
error stays path-less. -/
theorem response_at_path_entity_error_remap (node : FetchNode)
    (current_dir : Path) (inverted_paths : List (List Path)) (e : Error)
    (data? : Option Value) (hreq : node.requires ≠ .nil) :
    (∀ i rest ps, e.path = some (.key "_entities" :: .index i :: rest) →
      inverted_paths[i]? = some ps →
      (node.response_at_path current_dir inverted_paths
        { data := data?, errors := [e], incremental := false }).2 =
      ps.map (fun values_path =>
        { message := e.message, locations := [], path := some (values_path ++ rest),
          extensions := e.extensions })) ∧
    (∀ p0, e.path = some p0 →
      (∀ i rest, p0 ≠ .key "_entities" :: .index i :: rest) →
      (node.response_at_path current_dir inverted_paths
        { data := data?, errors := [e], incremental := false }).2 =
      [{ message := e.message, locations := [], path := some current_dir,
         extensions := e.extensions }]) ∧
    (e.path = none →
      (node.response_at_path current_dir inverted_paths
        { data := data?, errors := [e], incremental := false }).2 =
      [{ message := e.message, locations := [], path := none,
         extensions := e.extensions }]) := by
  have herr := response_at_path_errors node current_dir inverted_paths
    { data := data?, errors := [e], incremental := false } hreq
  obtain ⟨msg, locs, pth, ext⟩ := e
  dsimp only at herr ⊢
  refine ⟨?_, ?_, ?_⟩
  · intro i rest ps hp hps
    rw [herr]
    cases pth with
    | none => exact absurd hp (by simp)
    | some p =>
      have hpe : p = .key "_entities" :: .index i :: rest := by
        simpa using hp
      subst hpe
      simp [entityErrorFanOut, List.isPrefixOf, hps]
  · intro p0 hp hne
    rw [herr]
    have hpe : pth = some p0 := hp
    subst hpe
    cases p0 with
    | nil => simp [entityErrorFanOut, List.isPrefixOf]
    | cons h0 t0 =>
      cases h0 with
      | key k =>
        by_cases hk : k = "_entities"
        · subst hk
          cases t0 with
          | nil => simp [entityErrorFanOut, List.isPrefixOf]
          | cons h1 t1 =>
            cases h1 with
            | index i => exact absurd rfl (hne i t1)
            | key k1 => simp [entityErrorFanOut, List.isPrefixOf]
            | flatten => simp [entityErrorFanOut, List.isPrefixOf]
        · have hk2 : ¬("_entities" = k) := fun h => hk h.symm
          simp [entityErrorFanOut, List.isPrefixOf, hk2]
      | index i => simp [entityErrorFanOut, List.isPrefixOf]
      | flatten => simp [entityErrorFanOut, List.isPrefixOf]
  · intro hp
    rw [herr]
    have hpe : pth = none := hp
    subst hpe
    simp [entityErrorFanOut]

lemma setPad_get?_self : ∀ (xs : List Value) (i : Nat) (y : Value),
    (setPad xs i y).get? i = some y
  | _ :: _, 0, _ => rfl
  | [], 0, _ => rfl
  | _ :: xs, i + 1, y => setPad_get?_self xs i y
  | [], i + 1, y => setPad_get?_self [] i y

lemma fromPath_concat_flatten : ∀ (l : Path) (x : Value),
    Value.fromPath (l ++ [.flatten]) x = Value.fromPath l x
  | [], _ => rfl
  | .key k :: rest, x => by
    show Value.obj [(k, Value.fromPath (rest ++ [.flatten]) x)] = _
    rw [fromPath_concat_flatten rest x]
    rfl
  | .index i :: rest, x => by
    show Value.arr (setPad [] i (Value.fromPath (rest ++ [.flatten]) x)) = _
    rw [fromPath_concat_flatten rest x]
    rfl
  | .flatten :: _, _ => rfl

lemma getPath_nil : ∀ (v : Value), v.getPath [] = some v := by
  intro v
  cases v <;> rfl

lemma getPath_fromPath : ∀ (l : Path) (x : Value), flattenFree l = true →
    (Value.fromPath l x).getPath l = some x
  | [], x, _ => getPath_nil x
  | .key k :: rest, x, h => by
    show Value.getPath (.obj [(k, Value.fromPath rest x)]) (.key k :: rest) = some x
    have hget : objGet [(k, Value.fromPath rest x)] k = some (Value.fromPath rest x) := by
      simp [objGet]
    simp only [Value.getPath, hget]
    exact getPath_fromPath rest x h
  | .index i :: rest, x, h => by
    show Value.getPath (.arr (setPad [] i (Value.fromPath rest x))) (.index i :: rest) = some x
    simp only [Value.getPath, setPad_get?_self]
    exact getPath_fromPath rest x h
  | .flatten :: _, x, h => by simp [flattenFree] at h

/-- C6: in the scalar regime, when the current path ends in a flatten
marker the stitched value is grafted at the path with the trailing
flatten marker removed, and every downstream error that has a path gets
that path prefixed with the same trimmed path (a path-less error keeps no
path). -/
theorem response_at_path_scalar_flatten (node : FetchNode) (base : Path)
    (inverted_paths : List (List Path)) (response : Response)
    (hreq : node.requires = .nil) (hff : flattenFree base = true) :
    (node.response_at_path (base ++ [.flatten]) inverted_paths response).1 =
      Value.fromPath base (apply_rewrites node.output_rewrites (response.data.getD .null)) ∧
    (node.response_at_path (base ++ [.flatten]) inverted_paths response).1.getPath base =
      some (apply_rewrites node.output_rewrites (response.data.getD .null)) ∧
    (node.response_at_path (base ++ [.flatten]) inverted_paths response).2 =
      response.errors.map (fun error =>
        { error with path := error.path.map (fun path => base ++ path) }) := by
  have hmain : node.response_at_path (base ++ [.flatten]) inverted_paths response =
      (Value.fromPath base (apply_rewrites node.output_rewrites (response.data.getD .null)),
       response.errors.map (fun error =>
         { error with path := error.path.map (fun path => base ++ path) })) := by
    unfold FetchNode.response_at_path
    rw [hreq]
    dsimp only
    split
    · next h => simp [Selections.isEmpty] at h
    · rw [List.getLast?_concat]
      dsimp only
      rw [List.dropLast_concat, fromPath_concat_flatten]
  refine ⟨by rw [hmain], ?_, by rw [hmain]⟩
  rw [hmain]
  exact getPath_fromPath base _ hff

/-- C7: when the downstream call fails, the dispatcher normalizes the
failure — a failure already carrying subgraph-HTTP-error shape passes
through unchanged, any other failure is wrapped as a subgraph-HTTP-error
with no status code, the effective service name and the failure's textual
reason — and the fetch returns an empty value and exactly one
graphql-shaped error attached to the current path. -/
theorem fetch_node_failure_normalization (node : FetchNode) (data : Value)
    (current_dir : Path) (body_variables : List (String × Value))
    (e : BoxError) (vars : Variables)
    (hv : Variables.new node.requires node.variable_usages data current_dir
      body_variables node.input_rewrites = some vars) :
    node.fetch_node data current_dir body_variables (.error e) =
      (.null, [(normalize_failure e (effective_service_name node)).to_graphql_error
        (some current_dir)]) ∧
    ((normalize_failure e (effective_service_name node)).to_graphql_error
      (some current_dir)).path = some current_dir ∧
    (∀ sc s r, e = .fetch (.subrequestHttpError sc s r) →
      normalize_failure e (effective_service_name node) =
        .subrequestHttpError sc s r) ∧
    (∀ fe, e = .fetch fe → (∀ sc s r, fe ≠ .subrequestHttpError sc s r) →
      normalize_failure e (effective_service_name node) =
        .subrequestHttpError none (effective_service_name node) fe.displayMessage) ∧
    (∀ r, e = .other r →
      normalize_failure e (effective_service_name node) =
        .subrequestHttpError none (effective_service_name node) r) := by
  refine ⟨?_, rfl, ?_, ?_, ?_⟩
  · unfold FetchNode.fetch_node
    rw [hv]
  · intro sc s r he
    subst he
    rfl
  · intro fe he hne
    subst he
    cases fe with
    | subrequestHttpError sc s r => exact absurd rfl (hne sc s r)
    | subrequestUnexpectedPatchResponse s => rfl
    | subrequestMalformedResponse s r => rfl
  · intro r he
    subst he
    rfl

lemma objGet_objInsert_self : ∀ (fields : List (String × Value)) (k : String) (v : Value),
    objGet (objInsert fields k v) k = some v := by
  intro fields k v
  induction fields with
  | nil => simp [objInsert, objGet]
  | cons kv rest ih =>
    obtain ⟨k', v'⟩ := kv
    by_cases hk : k' = k
    · subst hk
      simp [objInsert, objGet]
    · simp [objInsert, objGet, hk] at ih ⊢
      simpa [objGet] using ih

lemma get_index_of_some_get? : ∀ (vs : List Value) (v : Value) (i : Nat),
    get_index_of vs v = some i → vs.get? i = some v := by
  intro vs
  induction vs with
  | nil => intro v i h; simp [get_index_of] at h
  | cons w ws ih =>
    intro v i h
    by_cases hw : w = v
    · subst hw
      simp [get_index_of] at h
      subst h
      rfl
    · simp [get_index_of, hw] at h
      obtain ⟨j, hj, hij⟩ := h
      subst hij
      exact ih v j hj

lemma get_index_of_none_not_mem : ∀ (vs : List Value) (v : Value),
    get_index_of vs v = none → v ∉ vs := by
  intro vs
  induction vs with
  | nil => intro v _ hm; simp at hm
  | cons w ws ih =>
    intro v h hm
    by_cases hw : w = v
    · simp [get_index_of, hw] at h
    · simp [get_index_of, hw] at h
      rcases List.mem_cons.mp hm with h1 | h2
      · exact hw h1.symm
      · exact ih v h h2

lemma pushAt_length : ∀ (l : List (List Path)) (i : Nat) (p : Path),
    (pushAt l i p).length = l.length := by
  intro l
  induction l with
  | nil => intro i p; rfl
  | cons x xs ih =>
    intro i p
    cases i with
    | zero => rfl
    | succ j => simp [pushAt, ih]

lemma pushAt_get?_self : ∀ (l : List (List Path)) (i : Nat) (p : Path),
    (pushAt l i p).get? i = (l.get? i).map (fun ps => ps ++ [p]) := by
  intro l
  induction l with
  | nil => intro i p; cases i <;> rfl
  | cons x xs ih =>
    intro i p
    cases i with
    | zero => rfl
    | succ j => simpa [pushAt] using ih j p

lemma pushAt_get?_ne : ∀ (l : List (List Path)) (i j : Nat) (p : Path), j ≠ i →
    (pushAt l i p).get? j = l.get? j := by
  intro l
  induction l with
  | nil => intro i j p _; cases i <;> rfl
  | cons x xs ih =>
    intro i j p hne
    cases i with
    | zero =>
      cases j with
      | zero => exact absurd rfl hne
      | succ j' => rfl
    | succ i' =>
      cases j with
      | zero => rfl
      | succ j' =>
        have : j' ≠ i' := fun h => hne (by rw [h])
        simpa [pushAt] using ih i' j' p this

lemma nodup_get?_inj {α : Type _} : ∀ {l : List α}, l.Nodup → ∀ {i j : Nat} {v : α},
    l.get? i = some v → l.get? j = some v → i = j := by
  intro l
  induction l with
  | nil => intro _ i j v hi _; simp at hi
  | cons x xs ih =>
    intro hnd i j v hi hj
    have hx : x ∉ xs := (List.nodup_cons.mp hnd).1
    have hxs : xs.Nodup := (List.nodup_cons.mp hnd).2
    cases i with
    | zero =>
      cases j with
      | zero => rfl
      | succ j' =>
        have hxv : x = v := by simpa using hi
        have : v ∈ xs := List.get?_mem (by simpa using hj)
        exact absurd (hxv ▸ this) hx
    | succ i' =>
      cases j with
      | zero =>
        have hxv : x = v := by simpa using hj
        have : v ∈ xs := List.get?_mem (by simpa using hi)
        exact absurd (hxv ▸ this) hx
      | succ j' =>
        have := ih hxs (by simpa using hi) (by simpa using hj)
        rw [this]

/-- The sequence the dedup loop of `Variables::new` consumes: for every
position matched by `current_dir`, the executed `requires` selection
(kept only when it is a non-empty object, the emptiness being tested
before input rewrites are applied) paired with its path, after input
rewrites. -/
def dedupInputs (requires : Selections) (input_rewrites : Option (List DataRewrite))
    (data : Value) (current_dir : Path) : List (Path × Value) :=
  (selectValuesAndPaths current_dir [] data).filterMap (fun pv =>
    let value := executeSelectionSet pv.2 requires
    if isNonEmptyObject value then some (pv.1, apply_rewrites input_rewrites value)
    else none)

/-- The dedup step after selection execution, emptiness filtering and
input rewriting have been performed. -/
def dedupStepPost (st : List (List Path) × List Value) (pw : Path × Value) :
    List (List Path) × List Value :=
  match get_index_of st.2 pw.2 with
  | some index => (pushAt st.1 index pw.1, st.2)
  | none => (st.1 ++ [[pw.1]], st.2 ++ [pw.2])

lemma foldl_dedupStep_eq (requires : Selections)
    (input_rewrites : Option (List DataRewrite)) :
    ∀ (l : List (Path × Value)) (st : List (List Path) × List Value),
    l.foldl (dedupStep requires input_rewrites) st =
    (l.filterMap (fun pv =>
      let value := executeSelectionSet pv.2 requires
      if isNonEmptyObject value then some (pv.1, apply_rewrites input_rewrites value)
      else none)).foldl dedupStepPost st := by
  intro l
  induction l with
  | nil => intro st; rfl
  | cons pv t ih =>
    intro st
    by_cases h : isNonEmptyObject (executeSelectionSet pv.2 requires)
    · have hstep : dedupStep requires input_rewrites st pv =
          dedupStepPost st
            (pv.1, apply_rewrites input_rewrites (executeSelectionSet pv.2 requires)) := by
        simp [dedupStep, dedupStepPost, h]
      rw [List.foldl_cons, hstep, ih]
      simp [List.filterMap_cons, h]
    · have hstep : dedupStep requires input_rewrites st pv = st := by
        simp [dedupStep, h]
      rw [List.foldl_cons, hstep, ih]
      simp [List.filterMap_cons, h]

/-- The loop invariant of the dedup fold: after consuming `done`, the
value list is the first-seen deduplication of the values of `done` (a
duplicate-free subsequence containing every value seen), and position `i`
of the path-list index records, in traversal order, every path of `done`
whose value equals value `i`. -/
def DedupInv (done : List (Path × Value)) (st : List (List Path) × List Value) : Prop :=
  st.2.Sublist (done.map Prod.snd) ∧ st.2.Nodup ∧
  (∀ r ∈ done, r.2 ∈ st.2) ∧
  st.1.length = st.2.length ∧
  (∀ i v, st.2.get? i = some v →
    st.1.get? i = some ((done.filter (fun r => r.2 == v)).map Prod.fst))

lemma dedupStepPost_inv (done : List (Path × Value)) (pw : Path × Value)
    (st : List (List Path) × List Value) (h : DedupInv done st) :
    DedupInv (done ++ [pw]) (dedupStepPost st pw) := by
  obtain ⟨hsub, hnd, hmem, hlen, hidx⟩ := h
  unfold dedupStepPost
  cases hg : get_index_of st.2 pw.2 with
  | some index =>
    have hget : st.2.get? index = some pw.2 := get_index_of_some_get? _ _ _ hg
    refine ⟨?_, hnd, ?_, ?_, ?_⟩
    · rw [List.map_append]
      exact hsub.trans (List.sublist_append_left _ _)
    · intro r hr
      rcases List.mem_append.mp hr with h1 | h2
      · exact hmem r h1
      · have : r = pw := by simpa using h2
        subst this
        exact List.get?_mem hget
    · rw [pushAt_length]; exact hlen
    · intro i v hvi
      by_cases hii : i = index
      · subst hii
        have hveq : pw.2 = v := by
          rw [hget] at hvi
          exact Option.some.inj hvi
        rw [pushAt_get?_self, hidx i v hvi]
        simp only [Option.map_some']
        congr 1
        rw [List.filter_append, List.map_append]
        simp [hveq]
      · rw [pushAt_get?_ne _ _ _ _ hii, hidx i v hvi]
        congr 1
        rw [List.filter_append]
        have hvne : ¬(pw.2 == v) = true := by
          intro hbeq
          have hpv : pw.2 = v := by simpa using hbeq
          exact hii (nodup_get?_inj hnd hvi (hpv ▸ hget))
        simp [hvne]
  | none =>
    have hnm : pw.2 ∉ st.2 := get_index_of_none_not_mem _ _ hg
    refine ⟨?_, ?_, ?_, ?_, ?_⟩
    · rw [List.map_append]
      exact hsub.append (List.Sublist.refl _)
    · rw [List.nodup_append]
      refine ⟨hnd, List.nodup_singleton _, ?_⟩
      intro a ha hb
      have : a = pw.2 := by simpa using hb
      exact hnm (this ▸ ha)
    · intro r hr
      rcases List.mem_append.mp hr with h1 | h2
      · exact List.mem_append_left _ (hmem r h1)
      · have : r = pw := by simpa using h2
        subst this
        exact List.mem_append_right _ (by simp)
    · simp [hlen]
    · intro i v hvi
      rcases Nat.lt_trichotomy i st.2.length with hlt | heq | hgt
      · rw [List.get?_append hlt] at hvi
        rw [List.get?_append (hlen ▸ hlt), hidx i v hvi]
        congr 1
        rw [List.filter_append]
        have hvne : ¬(pw.2 == v) = true := by
          intro hbeq
          have hpv : pw.2 = v := by simpa using hbeq
          exact hnm (hpv ▸ List.get?_mem hvi)
        simp [hvne]
      · subst heq
        rw [List.get?_concat_length] at hvi
        have hveq : pw.2 = v := Option.some.inj hvi
        rw [← hlen, List.get?_concat_length]
        congr 1
        rw [List.filter_append]
        have hdone : done.filter (fun r => r.2 == pw.2) = [] := by
          rw [List.filter_eq_nil]
          intro r hr hbeq
          have : r.2 = pw.2 := by simpa using hbeq
          exact hnm (this ▸ hmem r hr)
        simp [← hveq, hdone]
      · have : (st.2 ++ [pw.2]).get? i = none := by
          rw [List.get?_eq_none]
          simp
          omega
        rw [this] at hvi
        exact absurd hvi (by simp)

lemma foldl_dedupStepPost_inv : ∀ (l done : List (Path × Value))
    (st : List (List Path) × List Value),
    DedupInv done st → DedupInv (done ++ l) (l.foldl dedupStepPost st) := by
  intro l
  induction l with
  | nil => intro done st h; simpa using h
  | cons pw t ih =>
    intro done st h
    have h2 := ih (done ++ [pw]) _ (dedupStepPost_inv done pw st h)
    simpa using h2

/-- C1: with non-empty `requires`, the Variable Builder deduplicates
per-position selection results by structural value equality: the
`representations` array is a duplicate-free subsequence of the per
position results (hence first-seen order) containing every result value —
so k structurally-equal results give exactly one entry — and the
path-list index entry at a value's position lists, in traversal
(first-seen) order, exactly the paths of the positions that produced that
value. -/
theorem variables_new_dedup (requires : Selections) (variable_usages : List String)
    (data : Value) (current_dir : Path) (body_variables : List (String × Value))
    (input_rewrites : Option (List DataRewrite)) (vars : Variables)
    (hreq : requires ≠ .nil)
    (hv : Variables.new requires variable_usages data current_dir body_variables
      input_rewrites = some vars) :
    ∃ reps : List Value,
      objGet vars.variables_ "representations" = some (.arr reps) ∧
      reps.Sublist ((dedupInputs requires input_rewrites data current_dir).map Prod.snd) ∧
      reps.Nodup ∧
      (∀ r ∈ dedupInputs requires input_rewrites data current_dir, r.2 ∈ reps) ∧
      vars.inverted_paths.length = reps.length ∧
      (∀ i v, reps.get? i = some v →
        vars.inverted_paths.get? i = some
          (((dedupInputs requires input_rewrites data current_dir).filter
            (fun r => r.2 == v)).map Prod.fst)) := by
  have hne : requires.isEmpty = false := selections_isEmpty_false hreq
  unfold Variables.new at hv
  rw [hne] at hv
  dsimp only at hv
  split at hv
  · split at hv
    · exact absurd hv (by simp)
    · have hvv := Option.some.inj hv
      subst hvv
      have hfold : List.foldl (dedupStep requires input_rewrites) ([], [])
          (selectValuesAndPaths current_dir [] data) =
          List.foldl dedupStepPost ([], [])
            (dedupInputs requires input_rewrites data current_dir) := by
        unfold dedupInputs
        exact foldl_dedupStep_eq requires input_rewrites _ _
      have h0 : DedupInv [] ([], []) := by
        refine ⟨List.nil_sublist _, List.nodup_nil, ?_, rfl, ?_⟩
        · intro r hr
          simp at hr
        · intro i v hvi
          simp at hvi
      have hinv : DedupInv (dedupInputs requires input_rewrites data current_dir)
          (List.foldl dedupStepPost ([], [])
            (dedupInputs requires input_rewrites data current_dir)) := by
        simpa using foldl_dedupStepPost_inv
          (dedupInputs requires input_rewrites data current_dir) [] ([], []) h0
      rw [← hfold] at hinv
      obtain ⟨hsub, hnd, hmem, hlen, hidx⟩ := hinv
      refine ⟨(List.foldl (dedupStep requires input_rewrites) ([], [])
        (selectValuesAndPaths current_dir [] data)).2,
        objGet_objInsert_self _ _ _, hsub, hnd, hmem, hlen, hidx⟩
  · next h => exact absurd rfl h

def c1requires : Selections := .cons (.field "id" none .none) .nil

def c1data : Value := .obj [("t", .arr
  [.obj [("id", .str "1")], .obj [("id", .str "2")], .obj [("id", .str "1")]])]

def c1dir : Path := [.key "t", .flatten]

def c1vars : Variables :=
  { variables_ := [("representations", .arr
      [.obj [("id", .str "1")], .obj [("id", .str "2")]])],
    inverted_paths := [[[.key "t", .index 0], [.key "t", .index 2]],
                       [[.key "t", .index 1]]] }

/-- Witness for C1: three positions with representation values
`{id:1}, {id:2}, {id:1}` dedupe to two representations, with the
path-list index recording both positions of `{id:1}` in first-seen
order. -/
theorem variables_new_dedup_witness :
    ∃ reps : List Value,
      objGet c1vars.variables_ "representations" = some (.arr reps) ∧
      reps.Sublist ((dedupInputs c1requires none c1data c1dir).map Prod.snd) ∧
      reps.Nodup ∧
      (∀ r ∈ dedupInputs c1requires none c1data c1dir, r.2 ∈ reps) ∧
      c1vars.inverted_paths.length = reps.length ∧
      (∀ i v, reps.get? i = some v →
        c1vars.inverted_paths.get? i = some
          (((dedupInputs c1requires none c1data c1dir).filter
            (fun r => r.2 == v)).map Prod.fst)) :=
  variables_new_dedup c1requires [] c1data c1dir [] none c1vars
    (by intro h; cases h) (by decide)

/-- A concrete entity-regime fetch node (non-empty `requires`), used by
the concrete instantiations. -/
def entityNode : FetchNode :=
  { service_name := "products",
    requires := .cons (.field "id" none .none) .nil,
    variable_usages := [],
    operation := SubgraphOperation.from_string "query",
    operation_name := none,
    operation_kind := .query,
    id := none,
    input_rewrites := none,
    output_rewrites := none,
    schema_aware_hash := [],
    protocol := .graphQL }

/-- A concrete plain-regime fetch node (empty `requires`), used by the
concrete instantiations. -/
def plainNode : FetchNode :=
  { service_name := "products",
    requires := .nil,
    variable_usages := [],
    operation := SubgraphOperation.from_string "query",
    operation_name := none,
    operation_kind := .query,
    id := none,
    input_rewrites := none,
    output_rewrites := none,
    schema_aware_hash := [],
    protocol := .graphQL }

def c3error : Error :=
  { message := "boom", locations := [⟨1, 2⟩],
    path := some [.key "_entities", .index 0, .key "x"], extensions := [] }

/-- Witness for C3 at a concrete input: an error at `/_entities/0/x` with
two recorded paths for index 0 fans out to exactly two errors. -/
theorem response_at_path_entity_error_remap_witness :
    (∀ i rest ps, c3error.path = some (.key "_entities" :: .index i :: rest) →
      [[[PathElement.key "a"], [PathElement.key "b"]]][i]? = some ps →
      (entityNode.response_at_path [.key "top"] [[[.key "a"], [.key "b"]]]
        { data := none, errors := [c3error], incremental := false }).2 =
      ps.map (fun values_path =>
        { message := c3error.message, locations := [],
          path := some (values_path ++ rest), extensions := c3error.extensions })) ∧
    (∀ p0, c3error.path = some p0 →
      (∀ i rest, p0 ≠ .key "_entities" :: .index i :: rest) →
      (entityNode.response_at_path [.key "top"] [[[.key "a"], [.key "b"]]]
        { data := none, errors := [c3error], incremental := false }).2 =
      [{ message := c3error.message, locations := [], path := some [.key "top"],
         extensions := c3error.extensions }]) ∧
    (c3error.path = none →
      (entityNode.response_at_path [.key "top"] [[[.key "a"], [.key "b"]]]
        { data := none, errors := [c3error], incremental := false }).2 =
      [{ message := c3error.message, locations := [], path := none,
         extensions := c3error.extensions }]) :=
  response_at_path_entity_error_remap entityNode [.key "top"]
    [[[.key "a"], [.key "b"]]] c3error none (by simp [entityNode])

/-- Witness for C5 at a concrete input: a dependent fetch whose parent
value is missing is skipped. -/
theorem variables_new_null_guard_witness :
    Variables.new plainNode.requires plainNode.variable_usages .null [.key "a"] []
      plainNode.input_rewrites = none ∧
    plainNode.fetch_node .null [.key "a"] []
      (.ok { data := none, errors := [], incremental := false }) = (.obj [], []) :=
  variables_new_null_guard plainNode .null [.key "a"] []
    (.ok { data := none, errors := [], incremental := false })
    rfl (by simp) (Or.inl rfl)

def c6error : Error :=
  { message := "bad field", locations := [⟨3, 4⟩],
    path := some [.key "x"], extensions := [] }

/-- Witness for C6 at a concrete input: a current path `/a/@` grafts at
`/a` and prefixes the downstream error path with `/a`. -/
theorem response_at_path_scalar_flatten_witness :
    (plainNode.response_at_path ([.key "a"] ++ [.flatten]) []
      { data := some (.obj [("x", .num 1)]), errors := [c6error],
        incremental := false }).1 =
      Value.fromPath [.key "a"] (apply_rewrites plainNode.output_rewrites
        ((some (Value.obj [("x", .num 1)])).getD .null)) ∧
    (plainNode.response_at_path ([.key "a"] ++ [.flatten]) []
      { data := some (.obj [("x", .num 1)]), errors := [c6error],
        incremental := false }).1.getPath [.key "a"] =
      some (apply_rewrites plainNode.output_rewrites
        ((some (Value.obj [("x", .num 1)])).getD .null)) ∧
    (plainNode.response_at_path ([.key "a"] ++ [.flatten]) []
      { data := some (.obj [("x", .num 1)]), errors := [c6error],
        incremental := false }).2 =
      [c6error].map (fun error =>
        { error with path := error.path.map (fun path => [PathElement.key "a"] ++ path) }) :=
  response_at_path_scalar_flatten plainNode [.key "a"] []
    { data := some (.obj [("x", .num 1)]), errors := [c6error], incremental := false }
    rfl rfl

/-- Witness for C7 at a concrete input: an opaque transport failure is
wrapped as a subgraph-HTTP-error and returned as the only error, at the
current path. -/
theorem fetch_node_failure_normalization_witness :
    plainNode.fetch_node (.obj []) [] [] (.error (.other "connection refused")) =
      (.null, [(normalize_failure (.other "connection refused")
        (effective_service_name plainNode)).to_graphql_error (some [])]) ∧
    ((normalize_failure (.other "connection refused")
      (effective_service_name plainNode)).to_graphql_error (some [])).path = some [] ∧
    (∀ sc s r, BoxError.other "connection refused" = .fetch (.subrequestHttpError sc s r) →
      normalize_failure (.other "connection refused") (effective_service_name plainNode) =
        .subrequestHttpError sc s r) ∧
    (∀ fe, BoxError.other "connection refused" = .fetch fe →
      (∀ sc s r, fe ≠ .subrequestHttpError sc s r) →
      normalize_failure (.other "connection refused") (effective_service_name plainNode) =
        .subrequestHttpError none (effective_service_name plainNode) fe.displayMessage) ∧
    (∀ r, BoxError.other "connection refused" = .other r →
      normalize_failure (.other "connection refused") (effective_service_name plainNode) =
        .subrequestHttpError none (effective_service_name plainNode) r) :=
  fetch_node_failure_normalization plainNode (.obj []) [] []
    (.other "connection refused") { variables_ := [], inverted_paths := [] } rfl

/-- Witness for C8 at a concrete input: a response with no data and no
errors stitches to `(null, [])`. -/
theorem response_at_path_missing_entities_silent_witness :
    entityNode.response_at_path [.key "top"] [[[.key "a"]]]
      { data := none, errors := [], incremental := false } = (.null, []) :=
  response_at_path_missing_entities_silent entityNode [.key "top"] [[[.key "a"]]]
    { data := none, errors := [], incremental := false }
    (by simp [entityNode]) rfl (by intro m h; cases h)

def c9error : Error :=
  { message := "warn", locations := [⟨7, 8⟩], path := none, extensions := [] }

/-- Witness for C9 at a concrete input: the path-less error `c9error`
enters with locations `[(7, 8)]` and the single returned error carries
empty locations. -/
theorem response_at_path_locations_cleared_witness :
    (entityNode.response_at_path [.key "top"] []
      { data := none, errors := [c9error], incremental := false }).2 =
      [{ message := "warn", locations := [], path := none, extensions := [] }] ∧
    ({ message := "warn", locations := [], path := none,
       extensions := [] } : Error).locations = [] :=
  ⟨by decide,
    response_at_path_locations_cleared entityNode [.key "top"] []
      { data := none, errors := [c9error], incremental := false }
      (by simp [entityNode])
      { message := "warn", locations := [], path := none, extensions := [] }
      (by decide)⟩

/-- Counterexample to C4 as stated: an entity-shaped downstream error
whose index is not recorded in the path-list index (here index 1, with
only index 0 recorded) produces no output error at all — the input error
is discarded, while the claim says every input error contributes at least
one. -/
theorem response_at_path_error_discarded_counterexample :
    (entityNode.response_at_path [.key "top"] [[[.key "a"]]]
      { data := none,
        errors := [{ message := "boom", locations := [],
                     path := some [.key "_entities", .index 1, .key "x"],
                     extensions := [] }],
        incremental := false }).2 = [] ∧
    ({ data := none,
       errors := [{ message := "boom", locations := [],
                    path := some [.key "_entities", .index 1, .key "x"],
                    extensions := [] }],
       incremental := false } : Response).errors.length = 1 := by
  constructor
  · rfl
  · rfl

lemma length_flatMap_ge {α β : Type _} (f : α → List β) :
    ∀ l : List α, (∀ e ∈ l, f e ≠ []) → l.length ≤ (l.flatMap f).length := by
  intro l
  induction l with
  | nil => intro _; simp
  | cons a t ih =>
    intro h
    have ha : f a ≠ [] := h a (by simp)
    have hlen : 1 ≤ (f a).length := by
      cases hfa : f a with
      | nil => exact absurd hfa ha
      | cons x xs => simp
    have ht := ih (fun e he => h e (by simp [he]))
    simp only [List.flatMap_cons, List.length_cons, List.length_append]
    omega

lemma entityErrorFanOut_ne_nil (inverted_paths : List (List Path))
    (current_dir : Path) (e : Error)
    (h : ∀ i rest, e.path = some (.key "_entities" :: .index i :: rest) →
      inverted_paths[i]?.getD [] ≠ []) :
    entityErrorFanOut inverted_paths current_dir e ≠ [] := by
  obtain ⟨msg, locs, pth, ext⟩ := e
  cases pth with
  | none => simp [entityErrorFanOut]
  | some p =>
    by_cases hpre : entitiesPath.isPrefixOf p
    · cases hg : p[1]? with
      | none => simp [entityErrorFanOut, hpre, hg]
      | some el =>
        cases el with
        | index i =>
          have hshape : p = .key "_entities" :: .index i :: p.drop 2 := by
            cases p with
            | nil => simp [entitiesPath, List.isPrefixOf] at hpre
            | cons h0 t0 =>
              have h0e : PathElement.key "_entities" = h0 := by
                simpa [entitiesPath, List.isPrefixOf] using hpre
              subst h0e
              cases t0 with
              | nil => simp at hg
              | cons h1 t1 =>
                have h1e : h1 = .index i := by simpa using hg
                subst h1e
                rfl
          have hne := h i (p.drop 2) (by rw [hshape]; rfl)
          simp [entityErrorFanOut, hpre, hg]
          intro hcon
          rw [hcon] at hne
          exact hne rfl
        | key k => simp [entityErrorFanOut, hpre, hg]
        | flatten => simp [entityErrorFanOut, hpre, hg]
    · simp [entityErrorFanOut, hpre]

/-- C4 (amended): in the entity regime no downstream error whose path is
either non-entity-shaped or entity-shaped with an index actually recorded
in the path-list index is discarded — every such error contributes at
least one output error, so the output error list is at least as long as
the input list.  (An entity-shaped error whose index is out of range of
the path-list index is dropped, which is what the counterexample
exhibits.) -/
theorem response_at_path_errors_not_discarded (node : FetchNode)
    (current_dir : Path) (inverted_paths : List (List Path)) (response : Response)
    (hreq : node.requires ≠ .nil)
    (hin : ∀ e ∈ response.errors, ∀ i rest,
      e.path = some (.key "_entities" :: .index i :: rest) →
      inverted_paths[i]?.getD [] ≠ []) :
    response.errors.length ≤
      (node.response_at_path current_dir inverted_paths response).2.length := by
  rw [response_at_path_errors node current_dir inverted_paths response hreq]
  exact length_flatMap_ge _ _ (fun e he => entityErrorFanOut_ne_nil _ _ e (hin e he))

def c4error : Error :=
  { message := "boom", locations := [],
    path := some [.key "_entities", .index 0, .key "x"], extensions := [] }

/-- Witness for the amended C4 at a concrete input: one entity-shaped
error with a recorded index contributes at least one output error. -/
theorem response_at_path_errors_not_discarded_witness :
    ({ data := none, errors := [c4error], incremental := false } : Response).errors.length ≤
      (entityNode.response_at_path [.key "top"] [[[.key "a"]]]
        { data := none, errors := [c4error], incremental := false }).2.length :=
  response_at_path_errors_not_discarded entityNode [.key "top"] [[[.key "a"]]]
    { data := none, errors := [c4error], incremental := false }
    (by simp [entityNode])
    (by
      intro e he i rest hp
      simp at he
      subst he
      simp [c4error] at hp
      obtain ⟨hi, -⟩ := hp
      subst hi
      simp)

/-- Two flatten-free paths diverge: they agree on a common prefix and
then differ at a position where both carry the same kind of step (two
distinct keys, or two distinct indices).  Paths produced by one
`select_values_and_paths` call always pairwise diverge: they follow the
same key/index/flatten pattern and differ only at flatten positions,
where they carry distinct concrete indices. -/
def divergent : Path → Path → Bool
  | .key a :: qs, .key b :: ps => if a == b then divergent qs ps else true
  | .index i :: qs, .index j :: ps => if i == j then divergent qs ps else true
  | _, _ => false

/-- Divergence specifically at an object key (the first difference is
between two distinct keys). -/
def keyDivergent : Path → Path → Bool
  | .key a :: qs, .key b :: ps => if a == b then keyDivergent qs ps else true
  | .index i :: qs, .index j :: ps => if i == j then keyDivergent qs ps else false
  | _, _ => false

/-- Pairwise divergence (in both directions) of all the paths of a
list. -/
def pairwiseDiv : List Path → Bool
  | [] => true
  | p :: ps => (ps.all (fun q => divergent p q && divergent q p)) && pairwiseDiv ps

lemma divergent_irrefl : ∀ p : Path, divergent p p = false := by
  intro p
  induction p with
  | nil => rfl
  | cons a t ih =>
    cases a with
    | key k => simp [divergent, ih]
    | index i => simp [divergent, ih]
    | flatten => rfl

lemma divergent_ne {p q : Path} (h : divergent p q = true) : p ≠ q := by
  intro he
  subst he
  rw [divergent_irrefl] at h
  cases h

lemma divergent_ne_nil {q p : Path} (h : divergent q p = true) : q ≠ [] := by
  intro he
  subst he
  cases p <;> simp [divergent] at h

lemma keyDivergent_ne_nil {q p : Path} (h : keyDivergent q p = true) : q ≠ [] := by
  intro he
  subst he
  cases p <;> simp [keyDivergent] at h

lemma pairwiseDiv_mem : ∀ {l : List Path}, pairwiseDiv l = true →
    ∀ {p q : Path}, p ∈ l → q ∈ l → p ≠ q → divergent p q = true := by
  intro l
  induction l with
  | nil => intro _ p q hp; simp at hp
  | cons x xs ih =>
    intro h p q hp hq hne
    simp only [pairwiseDiv, Bool.and_eq_true, List.all_eq_true] at h
    obtain ⟨h1, h2⟩ := h
    rcases List.mem_cons.mp hp with hp1 | hp2
    · rcases List.mem_cons.mp hq with hq1 | hq2
      · exact absurd (hp1.trans hq1.symm) hne
      · subst hp1
        exact (h1 q hq2).1
    · rcases List.mem_cons.mp hq with hq1 | hq2
      · subst hq1
        exact (h1 p hp2).2
      · exact ih h2 hp2 hq2 hne

lemma pairwiseDiv_nodup : ∀ {l : List Path}, pairwiseDiv l = true → l.Nodup := by
  intro l
  induction l with
  | nil => intro _; exact List.nodup_nil
  | cons x xs ih =>
    intro h
    simp only [pairwiseDiv, Bool.and_eq_true, List.all_eq_true] at h
    obtain ⟨h1, h2⟩ := h
    refine List.nodup_cons.mpr ⟨?_, ih h2⟩
    intro hx
    have hd := (h1 x hx).1
    rw [divergent_irrefl] at hd
    cases hd

lemma getPath_null : ∀ (p : Path), p ≠ [] → Value.null.getPath p = none := by
  intro p h
  cases p with
  | nil => exact absurd rfl h
  | cons a t => cases a <;> rfl

lemma objGet_objInsert_ne : ∀ (fields : List (String × Value)) (k a : String) (v : Value),
    a ≠ k → objGet (objInsert fields k v) a = objGet fields a := by
  intro fields k a v hak
  induction fields with
  | nil =>
    simp [objInsert, objGet]
    intro h
    exact absurd h.symm hak
  | cons kv rest ih =>
    obtain ⟨k', v'⟩ := kv
    by_cases hk : k' = k
    · subst hk
      have hka : (k' == a) = false := by
        simp
        intro h
        exact hak h.symm
      simp [objInsert, objGet, hka]
    · simp only [objInsert, beq_iff_eq, hk, if_false]
      by_cases hka : k' = a
      · subst hka
        simp [objGet]
      · have hka2 : (k' == a) = false := by simp [hka]
        simp [objGet, hka2] at ih ⊢
        simpa [objGet] using ih

lemma objGet_singleton (k : String) (v : Value) : objGet [(k, v)] k = some v := by
  simp [objGet]

lemma flattenFree_cons {el : PathElement} {rest : Path}
    (h : flattenFree (el :: rest) = true) :
    el ≠ .flatten ∧ flattenFree rest = true := by
  cases el with
  | key k => exact ⟨by simp, h⟩
  | index i => exact ⟨by simp, h⟩
  | flatten => simp [flattenFree] at h

lemma getPath_insertAt_self : ∀ (p : Path) (v x : Value), flattenFree p = true →
    (v.insertAt p x).getPath p = some x := by
  intro p
  induction p with
  | nil => intro v x _; exact getPath_nil x
  | cons el rest ih =>
    intro v x hff
    cases el with
    | key k =>
      cases v with
      | obj fields =>
        simp only [Value.insertAt, Value.getPath, objGet_objInsert_self]
        exact ih _ x hff
      | null => simp only [Value.insertAt, Value.getPath, objGet_singleton]
                exact ih _ x hff
      | bool b => simp only [Value.insertAt, Value.getPath, objGet_singleton]
                  exact ih _ x hff
      | num n => simp only [Value.insertAt, Value.getPath, objGet_singleton]
                 exact ih _ x hff
      | str s => simp only [Value.insertAt, Value.getPath, objGet_singleton]
                 exact ih _ x hff
      | arr xs => simp only [Value.insertAt, Value.getPath, objGet_singleton]
                  exact ih _ x hff
    | index i =>
      cases v with
      | arr xs =>
        simp only [Value.insertAt, Value.getPath, setPad_get?_self]
        exact ih _ x hff
      | null => simp only [Value.insertAt, Value.getPath, setPad_get?_self]
                exact ih _ x hff
      | bool b => simp only [Value.insertAt, Value.getPath, setPad_get?_self]
                  exact ih _ x hff
      | num n => simp only [Value.insertAt, Value.getPath, setPad_get?_self]
                 exact ih _ x hff
      | str s => simp only [Value.insertAt, Value.getPath, setPad_get?_self]
                 exact ih _ x hff
      | obj fields => simp only [Value.insertAt, Value.getPath, setPad_get?_self]
                      exact ih _ x hff
    | flatten => simp [flattenFree] at hff

lemma setPad_get?_lt : ∀ (xs : List Value) (j i : Nat) (y : Value), i ≠ j →
    i < xs.length → (setPad xs j y).get? i = xs.get? i
  | _ :: _, 0, 0, _, hne, _ => absurd rfl hne
  | _ :: _, 0, _ + 1, _, _, _ => rfl
  | [], 0, _, _, _, hlt => absurd hlt (by simp)
  | _ :: _, _ + 1, 0, _, _, _ => rfl
  | _ :: t, j + 1, i + 1, y, hne, hlt =>
    setPad_get?_lt t j i y (fun h => hne (by rw [h])) (by simpa using hlt)
  | [], _ + 1, _, _, _, hlt => absurd hlt (by simp)

lemma setPad_get?_ne : ∀ (xs : List Value) (j i : Nat) (y : Value), i ≠ j →
    (setPad xs j y).get? i = xs.get? i ∨
      ((setPad xs j y).get? i = some .null ∧ xs.get? i = none)
  | _ :: _, 0, 0, _, hne => absurd rfl hne
  | _ :: _, 0, _ + 1, _, _ => Or.inl rfl
  | [], 0, 0, _, hne => absurd rfl hne
  | [], 0, i + 1, _, _ => Or.inl (by simp [setPad])
  | _ :: _, _ + 1, 0, _, _ => Or.inl rfl
  | _ :: t, j + 1, i + 1, y, hne =>
    setPad_get?_ne t j i y (fun h => hne (by rw [h]))
  | [], j + 1, 0, _, _ => Or.inr ⟨rfl, rfl⟩
  | [], j + 1, i + 1, y, hne => by
    have := setPad_get?_ne [] j i y (fun h => hne (by rw [h]))
    simpa [setPad] using this

lemma not_obj_getPath_key (v : Value) (k : String) (rest : Path)
    (h : ∀ fields, v ≠ .obj fields) : v.getPath (.key k :: rest) = none := by
  cases v <;> first | rfl | exact absurd rfl (h _)

lemma not_arr_getPath_index (v : Value) (i : Nat) (rest : Path)
    (h : ∀ xs, v ≠ .arr xs) : v.getPath (.index i :: rest) = none := by
  cases v <;> first | rfl | exact absurd rfl (h _)

lemma insertAt_key_not_obj (v : Value) (k : String) (rest : Path) (x : Value)
    (h : ∀ fields, v ≠ .obj fields) :
    v.insertAt (.key k :: rest) x = .obj [(k, Value.insertAt .null rest x)] := by
  cases v <;> first | rfl | exact absurd rfl (h _)

lemma insertAt_index_not_arr (v : Value) (i : Nat) (rest : Path) (x : Value)
    (h : ∀ xs, v ≠ .arr xs) :
    v.insertAt (.index i :: rest) x = .arr (setPad [] i (Value.insertAt .null rest x)) := by
  cases v <;> first | rfl | exact absurd rfl (h _)

lemma objGet_singleton_ne (k a : String) (v : Value) (h : a ≠ k) :
    objGet [(k, v)] a = none := by
  have : (k == a) = false := by
    simp
    intro he
    exact h he.symm
  simp [objGet, this]

lemma getPath_obj_key (fields : List (String × Value)) (k : String) (rest : Path) :
    Value.getPath (.obj fields) (.key k :: rest) =
      match objGet fields k with
      | some v => v.getPath rest
      | none => none := rfl

lemma getPath_arr_index (xs : List Value) (i : Nat) (rest : Path) :
    Value.getPath (.arr xs) (.index i :: rest) =
      match xs.get? i with
      | some v => v.getPath rest
      | none => none := rfl

/-- Inserting at a path that key-diverges from `q` leaves the value at
`q` exactly unchanged. -/
lemma getPath_insertAt_keyDiv : ∀ (q p : Path) (v x : Value),
    keyDivergent q p = true → (v.insertAt p x).getPath q = v.getPath q := by
  intro q
  induction q with
  | nil =>
    intro p v x h
    cases p with
    | nil => simp [keyDivergent] at h
    | cons ph pt => cases ph <;> simp [keyDivergent] at h
  | cons qh qt ih =>
    intro p v x h
    cases p with
    | nil => cases qh <;> simp [keyDivergent] at h
    | cons ph pt =>
      cases qh with
      | key a =>
        cases ph with
        | key b =>
          by_cases hab : a = b
          · subst hab
            have ht : keyDivergent qt pt = true := by
              simpa [keyDivergent] using h
            have hqt : qt ≠ [] := keyDivergent_ne_nil ht
            cases v with
            | obj fields =>
              rw [show Value.insertAt (.obj fields) (.key a :: pt) x =
                .obj (objInsert fields a
                  (Value.insertAt ((objGet fields a).getD .null) pt x)) from rfl]
              rw [getPath_obj_key, getPath_obj_key, objGet_objInsert_self]
              cases hga : objGet fields a with
              | some u =>
                dsimp only [Option.getD_some]
                exact ih pt u x ht
              | none =>
                dsimp only [Option.getD_none]
                rw [ih pt .null x ht]
                exact getPath_null qt hqt
            | null =>
              rw [insertAt_key_not_obj _ _ _ _ (by intro f hf; cases hf),
                getPath_obj_key, objGet_singleton,
                not_obj_getPath_key _ _ _ (by intro f hf; cases hf)]
              dsimp only
              rw [ih pt .null x ht]
              exact getPath_null qt hqt
            | bool b2 =>
              rw [insertAt_key_not_obj _ _ _ _ (by intro f hf; cases hf),
                getPath_obj_key, objGet_singleton,
                not_obj_getPath_key _ _ _ (by intro f hf; cases hf)]
              dsimp only
              rw [ih pt .null x ht]
              exact getPath_null qt hqt
            | num n =>
              rw [insertAt_key_not_obj _ _ _ _ (by intro f hf; cases hf),
                getPath_obj_key, objGet_singleton,
                not_obj_getPath_key _ _ _ (by intro f hf; cases hf)]
              dsimp only
              rw [ih pt .null x ht]
              exact getPath_null qt hqt
            | str s =>
              rw [insertAt_key_not_obj _ _ _ _ (by intro f hf; cases hf),
                getPath_obj_key, objGet_singleton,
                not_obj_getPath_key _ _ _ (by intro f hf; cases hf)]
              dsimp only
              rw [ih pt .null x ht]
              exact getPath_null qt hqt
            | arr xs =>
              rw [insertAt_key_not_obj _ _ _ _ (by intro f hf; cases hf),
                getPath_obj_key, objGet_singleton,
                not_obj_getPath_key _ _ _ (by intro f hf; cases hf)]
              dsimp only
              rw [ih pt .null x ht]
              exact getPath_null qt hqt
          · cases v with
            | obj fields =>
              rw [show Value.insertAt (.obj fields) (.key b :: pt) x =
                .obj (objInsert fields b
                  (Value.insertAt ((objGet fields b).getD .null) pt x)) from rfl]
              rw [getPath_obj_key, getPath_obj_key,
                objGet_objInsert_ne fields b a _ hab]
            | null =>
              rw [insertAt_key_not_obj _ _ _ _ (by intro f hf; cases hf),
                getPath_obj_key, objGet_singleton_ne b a _ hab,
                not_obj_getPath_key _ _ _ (by intro f hf; cases hf)]
            | bool b2 =>
              rw [insertAt_key_not_obj _ _ _ _ (by intro f hf; cases hf),
                getPath_obj_key, objGet_singleton_ne b a _ hab,
                not_obj_getPath_key _ _ _ (by intro f hf; cases hf)]
            | num n =>
              rw [insertAt_key_not_obj _ _ _ _ (by intro f hf; cases hf),
                getPath_obj_key, objGet_singleton_ne b a _ hab,
                not_obj_getPath_key _ _ _ (by intro f hf; cases hf)]
            | str s =>
              rw [insertAt_key_not_obj _ _ _ _ (by intro f hf; cases hf),
                getPath_obj_key, objGet_singleton_ne b a _ hab,
                not_obj_getPath_key _ _ _ (by intro f hf; cases hf)]
            | arr xs =>
              rw [insertAt_key_not_obj _ _ _ _ (by intro f hf; cases hf),
                getPath_obj_key, objGet_singleton_ne b a _ hab,
                not_obj_getPath_key _ _ _ (by intro f hf; cases hf)]
        | index j => simp [keyDivergent] at h
        | flatten => simp [keyDivergent] at h
      | index i =>
        cases ph with
        | index j =>
          have hij : i = j ∧ keyDivergent qt pt = true := by
            by_cases hij : i = j
            · subst hij
              exact ⟨rfl, by simpa [keyDivergent] using h⟩
            · simp [keyDivergent, hij] at h
          obtain ⟨hije, ht⟩ := hij
          subst hije
          have hqt : qt ≠ [] := keyDivergent_ne_nil ht
          cases v with
          | arr xs =>
            rw [show Value.insertAt (.arr xs) (.index i :: pt) x =
              .arr (setPad xs i
                (Value.insertAt ((xs.get? i).getD .null) pt x)) from rfl]
            rw [getPath_arr_index, getPath_arr_index, setPad_get?_self]
            cases hgi : xs.get? i with
            | some u =>
              dsimp only [Option.getD_some]
              exact ih pt u x ht
            | none =>
              dsimp only [Option.getD_none]
              rw [ih pt .null x ht]
              exact getPath_null qt hqt
          | null =>
            rw [insertAt_index_not_arr _ _ _ _ (by intro f hf; cases hf),
              getPath_arr_index, setPad_get?_self,
              not_arr_getPath_index _ _ _ (by intro f hf; cases hf)]
            dsimp only
            rw [ih pt .null x ht]
            exact getPath_null qt hqt
          | bool b2 =>
            rw [insertAt_index_not_arr _ _ _ _ (by intro f hf; cases hf),
              getPath_arr_index, setPad_get?_self,
              not_arr_getPath_index _ _ _ (by intro f hf; cases hf)]
            dsimp only
            rw [ih pt .null x ht]
            exact getPath_null qt hqt
          | num n =>
            rw [insertAt_index_not_arr _ _ _ _ (by intro f hf; cases hf),
              getPath_arr_index, setPad_get?_self,
              not_arr_getPath_index _ _ _ (by intro f hf; cases hf)]
            dsimp only
            rw [ih pt .null x ht]
            exact getPath_null qt hqt
          | str s =>
            rw [insertAt_index_not_arr _ _ _ _ (by intro f hf; cases hf),
              getPath_arr_index, setPad_get?_self,
              not_arr_getPath_index _ _ _ (by intro f hf; cases hf)]
            dsimp only
            rw [ih pt .null x ht]
            exact getPath_null qt hqt
          | obj fields =>
            rw [insertAt_index_not_arr _ _ _ _ (by intro f hf; cases hf),
              getPath_arr_index, setPad_get?_self,
              not_arr_getPath_index _ _ _ (by intro f hf; cases hf)]
            dsimp only
            rw [ih pt .null x ht]
            exact getPath_null qt hqt
        | key b => simp [keyDivergent] at h
        | flatten => simp [keyDivergent] at h
      | flatten => cases ph <;> simp [keyDivergent] at h

/-- Inserting at a path that diverges from `q` leaves the value at `q`
unchanged, except that `q` may come to hold an array-padding null. -/
lemma getPath_insertAt_div_weak : ∀ (q p : Path) (v x : Value),
    divergent q p = true →
    (v.insertAt p x).getPath q = v.getPath q ∨
      (v.insertAt p x).getPath q = some .null := by
  intro q
  induction q with
  | nil =>
    intro p v x h
    cases p with
    | nil => simp [divergent] at h
    | cons ph pt => cases ph <;> simp [divergent] at h
  | cons qh qt ih =>
    intro p v x h
    cases p with
    | nil => cases qh <;> simp [divergent] at h
    | cons ph pt =>
      cases qh with
      | key a =>
        cases ph with
        | key b =>
          by_cases hab : a = b
          · subst hab
            have ht : divergent qt pt = true := by simpa [divergent] using h
            have hqt : qt ≠ [] := divergent_ne_nil ht
            cases v with
            | obj fields =>
              rw [show Value.insertAt (.obj fields) (.key a :: pt) x =
                .obj (objInsert fields a
                  (Value.insertAt ((objGet fields a).getD .null) pt x)) from rfl]
              rw [getPath_obj_key, getPath_obj_key, objGet_objInsert_self]
              cases hga : objGet fields a with
              | some u =>
                dsimp only [Option.getD_some]
                exact ih pt u x ht
              | none =>
                dsimp only [Option.getD_none]
                rcases ih pt .null x ht with h1 | h1
                · left
                  rw [h1]
                  exact getPath_null qt hqt
                · right
                  exact h1
            | null =>
              rw [insertAt_key_not_obj _ _ _ _ (by intro f hf; cases hf),
                getPath_obj_key, objGet_singleton,
                not_obj_getPath_key _ _ _ (by intro f hf; cases hf)]
              dsimp only
              rcases ih pt .null x ht with h1 | h1
              · left
                rw [h1]
                exact getPath_null qt hqt
              · right
                exact h1
            | bool b2 =>
              rw [insertAt_key_not_obj _ _ _ _ (by intro f hf; cases hf),
                getPath_obj_key, objGet_singleton,
                not_obj_getPath_key _ _ _ (by intro f hf; cases hf)]
              dsimp only
              rcases ih pt .null x ht with h1 | h1
              · left
                rw [h1]
                exact getPath_null qt hqt
              · right
                exact h1
            | num n =>
              rw [insertAt_key_not_obj _ _ _ _ (by intro f hf; cases hf),
                getPath_obj_key, objGet_singleton,
                not_obj_getPath_key _ _ _ (by intro f hf; cases hf)]
              dsimp only
              rcases ih pt .null x ht with h1 | h1
              · left
                rw [h1]
                exact getPath_null qt hqt
              · right
                exact h1
            | str s =>
              rw [insertAt_key_not_obj _ _ _ _ (by intro f hf; cases hf),
                getPath_obj_key, objGet_singleton,
                not_obj_getPath_key _ _ _ (by intro f hf; cases hf)]
              dsimp only
              rcases ih pt .null x ht with h1 | h1
              · left
                rw [h1]
                exact getPath_null qt hqt
              · right
                exact h1
            | arr xs =>
              rw [insertAt_key_not_obj _ _ _ _ (by intro f hf; cases hf),
                getPath_obj_key, objGet_singleton,
                not_obj_getPath_key _ _ _ (by intro f hf; cases hf)]
              dsimp only
              rcases ih pt .null x ht with h1 | h1
              · left
                rw [h1]
                exact getPath_null qt hqt
              · right
                exact h1
          · left
            exact getPath_insertAt_keyDiv (.key a :: qt) (.key b :: pt) v x
              (by simp [keyDivergent, hab])
        | index j => simp [divergent] at h
        | flatten => simp [divergent] at h
      | index i =>
        cases ph with
        | index j =>
          by_cases hij : i = j
          · subst hij
            have ht : divergent qt pt = true := by simpa [divergent] using h
            have hqt : qt ≠ [] := divergent_ne_nil ht
            cases v with
            | arr xs =>
              rw [show Value.insertAt (.arr xs) (.index i :: pt) x =
                .arr (setPad xs i
                  (Value.insertAt ((xs.get? i).getD .null) pt x)) from rfl]
              rw [getPath_arr_index, getPath_arr_index, setPad_get?_self]
              cases hgi : xs.get? i with
              | some u =>
                dsimp only [Option.getD_some]
                exact ih pt u x ht
              | none =>
                dsimp only [Option.getD_none]
                rcases ih pt .null x ht with h1 | h1
                · left
                  rw [h1]
                  exact getPath_null qt hqt
                · right
                  exact h1
            | null =>
              rw [insertAt_index_not_arr _ _ _ _ (by intro f hf; cases hf),
                getPath_arr_index, setPad_get?_self,
                not_arr_getPath_index _ _ _ (by intro f hf; cases hf)]
              dsimp only
              rcases ih pt .null x ht with h1 | h1
              · left
                rw [h1]
                exact getPath_null qt hqt
              · right
                exact h1
            | bool b2 =>
              rw [insertAt_index_not_arr _ _ _ _ (by intro f hf; cases hf),
                getPath_arr_index, setPad_get?_self,
                not_arr_getPath_index _ _ _ (by intro f hf; cases hf)]
              dsimp only
              rcases ih pt .null x ht with h1 | h1
              · left
                rw [h1]
                exact getPath_null qt hqt
              · right
                exact h1
            | num n =>
              rw [insertAt_index_not_arr _ _ _ _ (by intro f hf; cases hf),
                getPath_arr_index, setPad_get?_self,
                not_arr_getPath_index _ _ _ (by intro f hf; cases hf)]
              dsimp only
              rcases ih pt .null x ht with h1 | h1
              · left
                rw [h1]
                exact getPath_null qt hqt
              · right
                exact h1
            | str s =>
              rw [insertAt_index_not_arr _ _ _ _ (by intro f hf; cases hf),
                getPath_arr_index, setPad_get?_self,
                not_arr_getPath_index _ _ _ (by intro f hf; cases hf)]
              dsimp only
              rcases ih pt .null x ht with h1 | h1
              · left
                rw [h1]
                exact getPath_null qt hqt
              · right
                exact h1
            | obj fields =>
              rw [insertAt_index_not_arr _ _ _ _ (by intro f hf; cases hf),
                getPath_arr_index, setPad_get?_self,
                not_arr_getPath_index _ _ _ (by intro f hf; cases hf)]
              dsimp only
              rcases ih pt .null x ht with h1 | h1
              · left
                rw [h1]
                exact getPath_null qt hqt
              · right
                exact h1
          · cases v with
            | arr xs =>
              rw [show Value.insertAt (.arr xs) (.index j :: pt) x =
                .arr (setPad xs j
                  (Value.insertAt ((xs.get? j).getD .null) pt x)) from rfl]
              rw [getPath_arr_index, getPath_arr_index]
              rcases setPad_get?_ne xs j i _ hij with hs | ⟨hs, hx⟩
              · left
                rw [hs]
              · rw [hs, hx]
                dsimp only
                cases qt with
                | nil => right; rfl
                | cons e t => left; cases e <;> rfl
            | null =>
              rw [insertAt_index_not_arr _ _ _ _ (by intro f hf; cases hf),
                getPath_arr_index,
                not_arr_getPath_index _ _ _ (by intro f hf; cases hf)]
              rcases setPad_get?_ne [] j i _ hij with hs | ⟨hs, hx⟩
              · left
                rw [hs]
                simp
              · rw [hs]
                dsimp only
                cases qt with
                | nil => right; rfl
                | cons e t => left; cases e <;> rfl
            | bool b2 =>
              rw [insertAt_index_not_arr _ _ _ _ (by intro f hf; cases hf),
                getPath_arr_index,
                not_arr_getPath_index _ _ _ (by intro f hf; cases hf)]
              rcases setPad_get?_ne [] j i _ hij with hs | ⟨hs, hx⟩
              · left
                rw [hs]
                simp
              · rw [hs]
                dsimp only
                cases qt with
                | nil => right; rfl
                | cons e t => left; cases e <;> rfl
            | num n =>
              rw [insertAt_index_not_arr _ _ _ _ (by intro f hf; cases hf),
                getPath_arr_index,
                not_arr_getPath_index _ _ _ (by intro f hf; cases hf)]
              rcases setPad_get?_ne [] j i _ hij with hs | ⟨hs, hx⟩
              · left
                rw [hs]
                simp
              · rw [hs]
                dsimp only
                cases qt with
                | nil => right; rfl
                | cons e t => left; cases e <;> rfl
            | str s =>
              rw [insertAt_index_not_arr _ _ _ _ (by intro f hf; cases hf),
                getPath_arr_index,
                not_arr_getPath_index _ _ _ (by intro f hf; cases hf)]
              rcases setPad_get?_ne [] j i _ hij with hs | ⟨hs, hx⟩
              · left
                rw [hs]
                simp
              · rw [hs]
                dsimp only
                cases qt with
                | nil => right; rfl
                | cons e t => left; cases e <;> rfl
            | obj fields =>
              rw [insertAt_index_not_arr _ _ _ _ (by intro f hf; cases hf),
                getPath_arr_index,
                not_arr_getPath_index _ _ _ (by intro f hf; cases hf)]
              rcases setPad_get?_ne [] j i _ hij with hs | ⟨hs, hx⟩
              · left
                rw [hs]
                simp
              · rw [hs]
                dsimp only
                cases qt with
                | nil => right; rfl
                | cons e t => left; cases e <;> rfl
        | key b => simp [divergent] at h
        | flatten => simp [divergent] at h
      | flatten => cases ph <;> simp [divergent] at h

/-- Inserting at a path that diverges from `p` preserves a value already
present at `p` exactly. -/
lemma getPath_insertAt_div_pres : ∀ (p q : Path) (v x y : Value),
    divergent p q = true → v.getPath p = some y →
    (v.insertAt q x).getPath p = some y := by
  intro p
  induction p with
  | nil =>
    intro q v x y h
    cases q with
    | nil => simp [divergent] at h
    | cons qh qt => cases qh <;> simp [divergent] at h
  | cons ph pt ih =>
    intro q v x y h hget
    cases q with
    | nil => cases ph <;> simp [divergent] at h
    | cons qh qt =>
      cases ph with
      | key a =>
        cases qh with
        | key b =>
          by_cases hab : a = b
          · subst hab
            have ht : divergent pt qt = true := by simpa [divergent] using h
            cases v with
            | obj fields =>
              rw [getPath_obj_key] at hget
              cases hga : objGet fields a with
              | none =>
                rw [hga] at hget
                exact absurd hget (by simp)
              | some u =>
                rw [hga] at hget
                dsimp only at hget
                rw [show Value.insertAt (.obj fields) (.key a :: qt) x =
                  .obj (objInsert fields a
                    (Value.insertAt ((objGet fields a).getD .null) qt x)) from rfl]
                rw [getPath_obj_key, objGet_objInsert_self, hga]
                dsimp only [Option.getD_some]
                exact ih qt u x y ht hget
            | null =>
              rw [not_obj_getPath_key _ _ _ (by intro f hf; cases hf)] at hget
              exact absurd hget (by simp)
            | bool b2 =>
              rw [not_obj_getPath_key _ _ _ (by intro f hf; cases hf)] at hget
              exact absurd hget (by simp)
            | num n =>
              rw [not_obj_getPath_key _ _ _ (by intro f hf; cases hf)] at hget
              exact absurd hget (by simp)
            | str s =>
              rw [not_obj_getPath_key _ _ _ (by intro f hf; cases hf)] at hget
              exact absurd hget (by simp)
            | arr xs =>
              rw [not_obj_getPath_key _ _ _ (by intro f hf; cases hf)] at hget
              exact absurd hget (by simp)
          · rw [getPath_insertAt_keyDiv (.key a :: pt) (.key b :: qt) v x
              (by simp [keyDivergent, hab])]
            exact hget
        | index j => simp [divergent] at h
        | flatten => simp [divergent] at h
      | index i =>
        cases qh with
        | index j =>
          by_cases hij : i = j
          · subst hij
            have ht : divergent pt qt = true := by simpa [divergent] using h
            cases v with
            | arr xs =>
              rw [getPath_arr_index] at hget
              cases hgi : xs.get? i with
              | none =>
                rw [hgi] at hget
                exact absurd hget (by simp)
              | some u =>
                rw [hgi] at hget
                dsimp only at hget
                rw [show Value.insertAt (.arr xs) (.index i :: qt) x =
                  .arr (setPad xs i
                    (Value.insertAt ((xs.get? i).getD .null) qt x)) from rfl]
                rw [getPath_arr_index, setPad_get?_self, hgi]
                dsimp only [Option.getD_some]
                exact ih qt u x y ht hget
            | null =>
              rw [not_arr_getPath_index _ _ _ (by intro f hf; cases hf)] at hget
              exact absurd hget (by simp)
            | bool b2 =>
              rw [not_arr_getPath_index _ _ _ (by intro f hf; cases hf)] at hget
              exact absurd hget (by simp)
            | num n =>
              rw [not_arr_getPath_index _ _ _ (by intro f hf; cases hf)] at hget
              exact absurd hget (by simp)
            | str s =>
              rw [not_arr_getPath_index _ _ _ (by intro f hf; cases hf)] at hget
              exact absurd hget (by simp)
            | obj fields =>
              rw [not_arr_getPath_index _ _ _ (by intro f hf; cases hf)] at hget
              exact absurd hget (by simp)
          · cases v with
            | arr xs =>
              rw [getPath_arr_index] at hget
              cases hgi : xs.get? i with
              | none =>
                rw [hgi] at hget
                exact absurd hget (by simp)
              | some u =>
                rw [hgi] at hget
                dsimp only at hget
                have hlt : i < xs.length := by
                  by_contra hnl
                  rw [List.get?_eq_none.mpr (Nat.le_of_not_lt hnl)] at hgi
                  cases hgi
                rw [show Value.insertAt (.arr xs) (.index j :: qt) x =
                  .arr (setPad xs j
                    (Value.insertAt ((xs.get? j).getD .null) qt x)) from rfl]
                rw [getPath_arr_index, setPad_get?_lt xs j i _ hij hlt, hgi]
                exact hget
            | null =>
              rw [not_arr_getPath_index _ _ _ (by intro f hf; cases hf)] at hget
              exact absurd hget (by simp)
            | bool b2 =>
              rw [not_arr_getPath_index _ _ _ (by intro f hf; cases hf)] at hget
              exact absurd hget (by simp)
            | num n =>
              rw [not_arr_getPath_index _ _ _ (by intro f hf; cases hf)] at hget
              exact absurd hget (by simp)
            | str s =>
              rw [not_arr_getPath_index _ _ _ (by intro f hf; cases hf)] at hget
              exact absurd hget (by simp)
            | obj fields =>
              rw [not_arr_getPath_index _ _ _ (by intro f hf; cases hf)] at hget
              exact absurd hget (by simp)
        | key b => simp [divergent] at h
        | flatten => simp [divergent] at h
      | flatten => cases qh <;> simp [divergent] at h

/-- Repeated insertion of the same value at a list of paths. -/
def foldIns (v : Value) (l : List Path) (x : Value) : Value :=
  l.foldl (fun v p => v.insertAt p x) v

lemma stitchOne_eq_foldIns (v : Value) (paths : List Path) (x : Value) :
    stitchOne v paths x = foldIns v (paths.drop 1 ++ paths.take 1) x := by
  cases paths with
  | nil => rfl
  | cons p t => simp [stitchOne, foldIns, List.foldl_append]

lemma mem_rot {a : Path} {l : List Path} :
    a ∈ l.drop 1 ++ l.take 1 ↔ a ∈ l := by
  cases l with
  | nil => simp
  | cons p t => simp [or_comm]

lemma foldIns_pres (x y : Value) : ∀ (l : List Path) (v : Value) (p : Path),
    (∀ q ∈ l, divergent p q = true) → v.getPath p = some y →
    (foldIns v l x).getPath p = some y := by
  intro l
  induction l with
  | nil => intro v p _ hget; exact hget
  | cons q t ih =>
    intro v p hdiv hget
    exact ih _ p (fun r hr => hdiv r (List.mem_cons_of_mem _ hr))
      (getPath_insertAt_div_pres p q v x y (hdiv q (List.mem_cons_self _ _)) hget)

lemma foldIns_self (x : Value) : ∀ (l : List Path) (v : Value) (p : Path),
    p ∈ l → flattenFree p = true → (∀ q ∈ l, q ≠ p → divergent p q = true) →
    (foldIns v l x).getPath p = some x := by
  intro l
  induction l with
  | nil => intro v p hp; simp at hp
  | cons q t ih =>
    intro v p hp hff hdiv
    by_cases hpt : p ∈ t
    · exact ih _ p hpt hff (fun r hr hne => hdiv r (List.mem_cons_of_mem _ hr) hne)
    · have hpq : p = q := by
        rcases List.mem_cons.mp hp with h1 | h2
        · exact h1
        · exact absurd h2 hpt
      subst hpq
      exact foldIns_pres x x t _ p
        (fun r hr => hdiv r (List.mem_cons_of_mem _ hr)
          (fun he => hpt (he ▸ hr)))
        (getPath_insertAt_self p v x hff)

lemma foldIns_weak (x : Value) : ∀ (l : List Path) (v : Value) (q : Path),
    (∀ p ∈ l, divergent q p = true) →
    (foldIns v l x).getPath q = v.getPath q ∨
      (foldIns v l x).getPath q = some .null := by
  intro l
  induction l with
  | nil => intro v q _; exact Or.inl rfl
  | cons p t ih =>
    intro v q hdiv
    rcases ih (v.insertAt p x) q (fun r hr => hdiv r (List.mem_cons_of_mem _ hr))
      with h1 | h1
    · rcases getPath_insertAt_div_weak q p v x (hdiv p (List.mem_cons_self _ _))
        with h2 | h2
      · exact Or.inl (h1.trans h2)
      · exact Or.inr (h1.trans h2)
    · exact Or.inr h1

lemma foldIns_keyDiv (x : Value) : ∀ (l : List Path) (v : Value) (q : Path),
    (∀ p ∈ l, keyDivergent q p = true) →
    (foldIns v l x).getPath q = v.getPath q := by
  intro l
  induction l with
  | nil => intro v q _; rfl
  | cons p t ih =>
    intro v q hdiv
    show (foldIns (v.insertAt p x) t x).getPath q = v.getPath q
    rw [ih (v.insertAt p x) q (fun r hr => hdiv r (List.mem_cons_of_mem _ hr)),
      getPath_insertAt_keyDiv q p v x (hdiv p (List.mem_cons_self _ _))]

lemma join_mem {inv : List (List Path)} {i : Nat} {ps : List Path} {p : Path}
    (hi : inv.get? i = some ps) (hp : p ∈ ps) : p ∈ inv.join :=
  List.mem_join.mpr ⟨ps, List.get?_mem hi, hp⟩

lemma join_disjoint : ∀ {inv : List (List Path)}, inv.join.Nodup →
    ∀ {i k : Nat} {ps qs : List Path} {p : Path}, i ≠ k →
    inv.get? i = some ps → inv.get? k = some qs → p ∈ ps → p ∈ qs → False := by
  intro inv
  induction inv with
  | nil => intro _ i k ps qs p _ hi; simp at hi
  | cons hd tl ih =>
    intro hnd i k ps qs p hik hi hk hp hq
    rw [show (hd :: tl).join = hd ++ tl.join from rfl, List.nodup_append] at hnd
    obtain ⟨hnd1, hnd2, hdisj⟩ := hnd
    cases i with
    | zero =>
      have hps : ps = hd := by simpa [eq_comm] using hi
      subst hps
      cases k with
      | zero => exact hik rfl
      | succ k' =>
        have hqs : tl.get? k' = some qs := by simpa using hk
        exact hdisj hp (List.mem_join.mpr ⟨qs, List.get?_mem hqs, hq⟩)
    | succ i' =>
      have hps : tl.get? i' = some ps := by simpa using hi
      cases k with
      | zero =>
        have hqs : qs = hd := by simpa [eq_comm] using hk
        subst hqs
        exact hdisj hq (List.mem_join.mpr ⟨ps, List.get?_mem hps, hp⟩)
      | succ k' =>
        have hqs : tl.get? k' = some qs := by simpa using hk
        exact ih hnd2 (fun h => hik (by rw [h])) hps hqs hp hq

lemma stitchList_cons (node : FetchNode) (inv : List (List Path)) (v : Value)
    (k : Nat) (e : Value) (t : List (Nat × Value)) :
    stitchList node inv v ((k, e) :: t) =
      stitchList node inv
        (match inv.get? k with
         | some paths => stitchOne v paths (apply_rewrites node.output_rewrites e)
         | none => v) t := rfl

lemma stitchList_pres (node : FetchNode) (inv : List (List Path)) (y : Value) :
    ∀ (l : List (Nat × Value)) (v : Value) (p : Path),
    (∀ pr ∈ l, ∀ ps q, inv.get? pr.1 = some ps → q ∈ ps → divergent p q = true) →
    v.getPath p = some y → (stitchList node inv v l).getPath p = some y := by
  intro l
  induction l with
  | nil => intro v p _ h; exact h
  | cons pr t ih =>
    intro v p hdiv hget
    obtain ⟨k, e⟩ := pr
    rw [stitchList_cons]
    apply ih _ p (fun r hr => hdiv r (List.mem_cons_of_mem _ hr))
    cases hk : inv.get? k with
    | none => exact hget
    | some ps =>
      dsimp only
      rw [stitchOne_eq_foldIns]
      exact foldIns_pres _ y _ v p
        (fun q hq => hdiv (k, e) (List.mem_cons_self _ _) ps q hk (mem_rot.mp hq))
        hget

lemma stitchList_weak (node : FetchNode) (inv : List (List Path)) :
    ∀ (l : List (Nat × Value)) (v : Value) (q : Path),
    (∀ pr ∈ l, ∀ ps p', inv.get? pr.1 = some ps → p' ∈ ps → divergent q p' = true) →
    (stitchList node inv v l).getPath q = v.getPath q ∨
      (stitchList node inv v l).getPath q = some .null := by
  intro l
  induction l with
  | nil => intro v q _; exact Or.inl rfl
  | cons pr t ih =>
    intro v q hdiv
    obtain ⟨k, e⟩ := pr
    rw [stitchList_cons]
    cases hk : inv.get? k with
    | none => exact ih v q (fun r hr => hdiv r (List.mem_cons_of_mem _ hr))
    | some ps =>
      dsimp only
      rcases ih (stitchOne v ps (apply_rewrites node.output_rewrites e)) q
        (fun r hr => hdiv r (List.mem_cons_of_mem _ hr)) with h1 | h1
      · rw [h1, stitchOne_eq_foldIns]
        exact foldIns_weak _ _ v q
          (fun p' hp' => hdiv (k, e) (List.mem_cons_self _ _) ps p' hk (mem_rot.mp hp'))
      · exact Or.inr h1

lemma stitchList_keyDiv (node : FetchNode) (inv : List (List Path)) :
    ∀ (l : List (Nat × Value)) (v : Value) (q : Path),
    (∀ pr ∈ l, ∀ ps p', inv.get? pr.1 = some ps → p' ∈ ps → keyDivergent q p' = true) →
    (stitchList node inv v l).getPath q = v.getPath q := by
  intro l
  induction l with
  | nil => intro v q _; rfl
  | cons pr t ih =>
    intro v q hdiv
    obtain ⟨k, e⟩ := pr
    rw [stitchList_cons]
    rw [ih _ q (fun r hr => hdiv r (List.mem_cons_of_mem _ hr))]
    cases hk : inv.get? k with
    | none => rfl
    | some ps =>
      dsimp only
      rw [stitchOne_eq_foldIns]
      exact foldIns_keyDiv _ _ v q
        (fun p' hp' => hdiv (k, e) (List.mem_cons_self _ _) ps p' hk (mem_rot.mp hp'))

lemma enumFrom_ge {α : Type _} : ∀ {l : List α} {n : Nat} {pr : Nat × α},
    pr ∈ List.enumFrom n l → n ≤ pr.1 := by
  intro l
  induction l with
  | nil => intro n pr h; simp at h
  | cons a t ih =>
    intro n pr h
    rw [show List.enumFrom n (a :: t) = (n, a) :: List.enumFrom (n + 1) t from rfl] at h
    rcases List.mem_cons.mp h with h1 | h2
    · rw [h1]
    · have := ih h2
      omega

lemma stitchList_pos (node : FetchNode) (inv : List (List Path))
    (hpd : pairwiseDiv inv.join = true)
    (hff : ∀ p ∈ inv.join, flattenFree p = true) :
    ∀ (arr : List Value) (n : Nat) (v : Value) (i : Nat) (ps : List Path)
      (p : Path) (ent : Value),
    inv.get? i = some ps → p ∈ ps → n ≤ i → arr.get? (i - n) = some ent →
    (stitchList node inv v (List.enumFrom n arr)).getPath p =
      some (apply_rewrites node.output_rewrites ent) := by
  intro arr
  induction arr with
  | nil => intro n v i ps p ent _ _ _ hget; simp at hget
  | cons a t ih =>
    intro n v i ps p ent hi hp hni hget
    rw [show List.enumFrom n (a :: t) = (n, a) :: List.enumFrom (n + 1) t from rfl,
      stitchList_cons]
    by_cases hin : i = n
    · subst hin
      have hia : ent = a := by
        rw [Nat.sub_self] at hget
        exact (Option.some.inj hget).symm
      subst hia
      rw [hi]
      dsimp only
      apply stitchList_pres node inv _ _ _ p
      · intro pr hpr ps' q hps' hq
        have hge : i + 1 ≤ pr.1 := enumFrom_ge hpr
        have hkne : pr.1 ≠ i := by omega
        have hpne : p ≠ q := by
          intro he
          exact join_disjoint (pairwiseDiv_nodup hpd) (fun h => hkne h.symm)
            hi hps' hp (he ▸ hq)
        exact pairwiseDiv_mem hpd (join_mem hi hp) (join_mem hps' hq) hpne
      · rw [stitchOne_eq_foldIns]
        apply foldIns_self
        · exact mem_rot.mpr hp
        · exact hff p (join_mem hi hp)
        · intro q hq hne
          exact pairwiseDiv_mem hpd (join_mem hi hp) (join_mem hi (mem_rot.mp hq))
            (Ne.symm hne)
    · have hgt : n < i := Nat.lt_of_le_of_ne hni (Ne.symm hin)
      have harith : i - n = (i - (n + 1)) + 1 := by omega
      rw [harith] at hget
      exact ih (n + 1) _ i ps p ent hi hp (by omega) hget

/-- In the entity regime with an `_entities` array in the data, the value
component of `response_at_path` is the stitched entity tree. -/
lemma response_at_path_data (node : FetchNode) (current_dir : Path)
    (inverted_paths : List (List Path)) (response : Response)
    (m : List (String × Value)) (entities : List Value)
    (hreq : node.requires ≠ .nil)
    (hdata : response.data = some (.obj m))
    (hent : objGet m "_entities" = some (.arr entities)) :
    (node.response_at_path current_dir inverted_paths response).1 =
      stitchEntities node inverted_paths entities := by
  unfold FetchNode.response_at_path
  rw [selections_isEmpty_false hreq]
  dsimp only
  rw [hdata]
  dsimp only
  rw [hent]
  split
  · rfl
  · next h => exact absurd rfl h

/-- C2 (amended): for a path-list index whose recorded paths are
flatten-free and pairwise divergent (which `select_values_and_paths`
guarantees, all positions following one current-path pattern), stitching
a downstream entity array back produces a value tree with a
structurally-equal copy of (the output-rewritten) entity `i` at every
path recorded for `i`; a path not recorded that diverges from every
recorded path holds no value — except that a position diverging at an
array index may hold an array-padding null (and ancestors of recorded
paths hold the containers built for them, which is what the
counterexample exhibits); and a response without errors stitches with
zero errors. -/
theorem response_at_path_scatter (node : FetchNode) (current_dir : Path)
    (inverted_paths : List (List Path)) (response : Response)
    (m : List (String × Value)) (entities : List Value)
    (hreq : node.requires ≠ .nil)
    (hdata : response.data = some (.obj m))
    (hent : objGet m "_entities" = some (.arr entities))
    (hpd : pairwiseDiv inverted_paths.join = true)
    (hff : ∀ p ∈ inverted_paths.join, flattenFree p = true) :
    (∀ i ps p ent, inverted_paths.get? i = some ps → p ∈ ps →
      entities.get? i = some ent →
      (node.response_at_path current_dir inverted_paths response).1.getPath p =
        some (apply_rewrites node.output_rewrites ent)) ∧
    (∀ q, (∀ p ∈ inverted_paths.join, divergent q p = true) →
      (node.response_at_path current_dir inverted_paths response).1.getPath q = none ∨
      (node.response_at_path current_dir inverted_paths response).1.getPath q =
        some .null) ∧
    (∀ q, q ≠ [] → (∀ p ∈ inverted_paths.join, keyDivergent q p = true) →
      (node.response_at_path current_dir inverted_paths response).1.getPath q = none) ∧
    (response.errors = [] →
      (node.response_at_path current_dir inverted_paths response).2 = []) := by
  have hd := response_at_path_data node current_dir inverted_paths response m entities
    hreq hdata hent
  refine ⟨?_, ?_, ?_, ?_⟩
  · intro i ps p ent hi hp hei
    rw [hd]
    unfold stitchEntities
    exact stitchList_pos node inverted_paths hpd hff entities 0 .null i ps p ent
      hi hp (Nat.zero_le i) (by simpa using hei)
  · intro q hq
    rw [hd]
    unfold stitchEntities
    rcases stitchList_weak node inverted_paths entities.enum .null q
      (fun pr hpr ps p' hps hp' => hq p' (join_mem hps hp')) with h1 | h1
    · cases q with
      | nil =>
        right
        rw [h1]
        rfl
      | cons e t =>
        left
        rw [h1]
        exact getPath_null _ (by simp)
    · right
      exact h1
  · intro q hqne hq
    rw [hd]
    unfold stitchEntities
    rw [stitchList_keyDiv node inverted_paths entities.enum .null q
      (fun pr hpr ps p' hps hp' => hq p' (join_mem hps hp'))]
    exact getPath_null q hqne
  · intro herr
    rw [response_at_path_errors node current_dir inverted_paths response hreq, herr]
    rfl

def c2X : Value := .obj [("name", .str "X")]

def c2Y : Value := .obj [("name", .str "Y")]

def c2inv : List (List Path) := [[[.key "a"], [.key "c"]], [[.key "b"]]]

def c2resp : Response :=
  { data := some (.obj [("_entities", .arr [c2X, c2Y])]),
    errors := [], incremental := false }

/-- Counterexample to C2 as stated: with the single recorded path `/a/b`,
stitching places the entity at `/a/b`, and the unrecorded path `/a` then
holds a value (the object container built around the entity) — so "no
value at any path not recorded" fails on the code. -/
theorem response_at_path_scatter_counterexample :
    (entityNode.response_at_path [.key "top"] [[[.key "a", .key "b"]]]
      { data := some (.obj [("_entities", .arr [c2X])]),
        errors := [], incremental := false }).1 =
      .obj [("a", .obj [("b", c2X)])] ∧
    Value.getPath (.obj [("a", .obj [("b", c2X)])]) [.key "a"] =
      some (.obj [("b", c2X)]) ∧
    [PathElement.key "a"] ∉ [[[PathElement.key "a", PathElement.key "b"]]].join := by
  refine ⟨rfl, rfl, by decide⟩

/-- Witness for the amended C2 at the spec's concrete scenario:
representations deduplicated to index `[[/a, /c], [/b]]` with downstream
array `[X, Y]` stitch to `{c: X, a: X, b: Y}` (map-equal to the claimed
`{a: X, b: Y, c: X}`) with zero errors, and the general scatter
conclusions hold there; the dedupe of `[{id:1},{id:2},{id:1}]` to two
representations is the first conjunct. -/
theorem response_at_path_scatter_witness :
    Variables.new c1requires [] c1data c1dir [] none = some c1vars ∧
    entityNode.response_at_path [] c2inv c2resp =
      (.obj [("c", c2X), ("a", c2X), ("b", c2Y)], []) ∧
    ((∀ i ps p ent, c2inv.get? i = some ps → p ∈ ps →
      [c2X, c2Y].get? i = some ent →
      (entityNode.response_at_path [] c2inv c2resp).1.getPath p =
        some (apply_rewrites entityNode.output_rewrites ent)) ∧
    (∀ q, (∀ p ∈ c2inv.join, divergent q p = true) →
      (entityNode.response_at_path [] c2inv c2resp).1.getPath q = none ∨
      (entityNode.response_at_path [] c2inv c2resp).1.getPath q = some .null) ∧
    (∀ q, q ≠ [] → (∀ p ∈ c2inv.join, keyDivergent q p = true) →
      (entityNode.response_at_path [] c2inv c2resp).1.getPath q = none) ∧
    (c2resp.errors = [] →
      (entityNode.response_at_path [] c2inv c2resp).2 = [])) :=
  ⟨by decide, rfl,
    response_at_path_scatter entityNode [] c2inv c2resp
      [("_entities", .arr [c2X, c2Y])] [c2X, c2Y]
      (by simp [entityNode]) rfl rfl (by decide) (by decide)⟩

end Fetch
